/-
Verification of the spill-to-disk combine engine
(crates/doc/src/combine/spill.rs).

The development shallowly embeds the spill writer, the segment reader and
the spill drainer.  The spill file is a list of model bytes (natural
numbers); machine integers are natural numbers, with an explicit
wrap-around (mod 2^32) wherever the source casts to u32.  The external
collaborators rkyv (serialization) and lz4 (block compression), which are
not part of this repository, are given concrete executable models that
satisfy exactly the contracts the source relies on: the serializer is an
injective self-delimiting byte coding of a document slice, and the
compressor is an invertible coding whose decompressor checks the expected
decompressed size.  Collaborators that belong to this repository but whose
sources are not part of this excerpt (Extractor comparison, the smash
reducer, Spec, FLAG_REDUCED, the combine Error enum) are modelled from the
specification and are marked as such in their doc comments.

Panics (assert! and friends in the source) are modelled as an explicit
error value, so that every theorem about a panic-free run can state so.
-/
import Mathlib

namespace Spill

/-- Node is the model of a document root value tree: the archived root is
an opaque sequence of model bytes.  Key extraction and reduction act on
this carrier. -/
abbrev Node := List Nat

/-- HeapDoc mirrors doc::HeapDoc / doc::ArchivedDoc: a binding (u32 in the
source, hence always < 2^32 there), a flags byte (u8, hence < 256) and a
root value.  The archived and heap forms are identified in the model since
the codec below is exact. -/
structure HeapDoc where
  binding : Nat
  flags : Nat
  root : Node
  deriving DecidableEq, Repr

instance : Inhabited HeapDoc := ⟨⟨0, 0, []⟩⟩

/-- Modelled from the spec: FLAG_REDUCED is the flags bit that marks a
document as already the result of at least one prior reduction (its
numeric value is private to combine/mod.rs; any single bit is faithful). -/
def FLAG_REDUCED : Nat := 1

/-! ## Byte codec: model of the rkyv archive format for a document slice

The source serializes a slice of HeapDoc with rkyv and reads it back with
archived_unsized_root.  rkyv is an external crate; the model below is a
concrete self-delimiting coding with the properties the source relies on:
it is deterministic, injective on machine-range documents, and decoding an
archive produced by the encoder yields exactly the encoded documents. -/

/-- encU32 encodes a natural number as four little-endian model bytes,
wrapping modulo 2^32 exactly as a cast to u32 does in the source. -/
def encU32 (n : Nat) : List Nat :=
  [n % 256, n / 256 % 256, n / 65536 % 256, n / 16777216 % 256]

/-- decU32 reads four little-endian bytes (missing bytes read as zero,
which never happens on the paths the source exercises). -/
def decU32 (bs : List Nat) : Nat :=
  bs.getD 0 0 + 256 * bs.getD 1 0 + 65536 * bs.getD 2 0 + 16777216 * bs.getD 3 0

/-- encDoc encodes one document: binding (u32), flags (u8), root length
(u32), root bytes. -/
def encDoc (d : HeapDoc) : List Nat :=
  encU32 d.binding ++ [d.flags % 256] ++ encU32 d.root.length ++ d.root

/-- archive is the model of rkyv serialization of a document slice: a
document count followed by the encoded documents. -/
def archive (docs : List HeapDoc) : List Nat :=
  encU32 docs.length ++ docs.flatMap encDoc

/-- rootArchive models HeapNode::to_archive for a lone root node (used by
write_segment only through its length, to seed bytes-per-document). -/
def rootArchive (r : Node) : List Nat :=
  encU32 r.length ++ r

/-- parseDocs parses exactly n encoded documents, failing on any shortage
or trailing garbage. -/
def parseDocs : Nat → List Nat → Option (List HeapDoc)
  | 0, [] => some []
  | 0, _ :: _ => none
  | n + 1, bs =>
    if _h : 9 ≤ bs.length then
      let binding := decU32 (bs.take 4)
      let flags := bs.getD 4 0
      let rlen := decU32 ((bs.drop 5).take 4)
      let rest := bs.drop 9
      if rlen ≤ rest.length then
        (parseDocs n (rest.drop rlen)).map
          (fun ds => ⟨binding, flags, rest.take rlen⟩ :: ds)
      else none
    else none

/-- decodeArchive models rkyv::archived_unsized_root for a document slice.
The source's cast is unchecked (garbage input is undefined behaviour
there); the model returns the empty list on garbage, which the source's
assert_ne!(docs.len(), 0) then turns into a panic. -/
def decodeArchive (bs : List Nat) : List HeapDoc :=
  (parseDocs (decU32 (bs.take 4)) (bs.drop 4)).getD []

/-! ## lz4 block codec model

lz4 is an external crate.  The model compressor prefixes the raw bytes
with their count; the decompressor checks that prefix against the bytes
that follow and against the capacity of the output buffer, and reports the
number of bytes produced, exactly the contract of
lz4::block::compress_to_buffer / decompress_to_buffer. -/

/-- compress models lz4::block::compress (never fails, output length is
within compress_bound = raw length + 1). -/
def compress (raw : List Nat) : List Nat :=
  raw.length :: raw

/-- decompress models lz4::block::decompress_to_buffer into a buffer of
capacity cap: on success it returns the count of bytes produced together
with the produced bytes; corrupt input or an overfull output buffer is an
io error (none). -/
def decompress (buf : List Nat) (cap : Nat) : Option (Nat × List Nat) :=
  match buf with
  | [] => none
  | n :: data => if data.length = n ∧ n ≤ cap then some (n, data) else none

/-- chunkBytes is the full on-file encoding of one accepted chunk: the
8-byte header (compressed length, raw length, each as a wrapped u32) then
the compressed payload.  This matches lines 95-116 of spill.rs. -/
def chunkBytes (g : List HeapDoc) : List Nat :=
  encU32 (compress (archive g)).length ++ encU32 (archive g).length ++ compress (archive g)

/-! ### Codec round-trip lemmas -/

theorem length_encU32 (n : Nat) : (encU32 n).length = 4 := rfl

theorem decU32_quad (n : Nat) :
    decU32 [n % 256, n / 256 % 256, n / 65536 % 256, n / 16777216 % 256] =
      n % 4294967296 := by
  show n % 256 + 256 * (n / 256 % 256) + 65536 * (n / 65536 % 256) +
      16777216 * (n / 16777216 % 256) = n % 4294967296
  omega

theorem decU32_encU32 (n : Nat) : decU32 (encU32 n) = n % 4294967296 :=
  decU32_quad n

theorem decU32_encU32_of_lt {n : Nat} (h : n < 4294967296) :
    decU32 (encU32 n) = n := by
  rw [decU32_encU32, Nat.mod_eq_of_lt h]

theorem length_encDoc (d : HeapDoc) : (encDoc d).length = 9 + d.root.length := by
  simp [encDoc, encU32]; omega

theorem length_archive (docs : List HeapDoc) :
    (archive docs).length = 4 + (docs.map (fun d => 9 + d.root.length)).sum := by
  simp only [archive, List.length_append, length_encU32]
  congr 1
  induction docs with
  | nil => rfl
  | cons d ds ih => simp [List.flatMap_cons, length_encDoc, ih]

theorem length_archive_pos (docs : List HeapDoc) : 4 ≤ (archive docs).length := by
  rw [length_archive]; omega

theorem length_compress (raw : List Nat) : (compress raw).length = raw.length + 1 := by
  simp [compress]

theorem decompress_compress (raw : List Nat) {cap : Nat} (h : raw.length ≤ cap) :
    decompress (compress raw) cap = some (raw.length, raw) := by
  simp [decompress, compress, h]

/-- MachineDoc states that a document is in machine range: in the source a
binding is a u32, flags a u8, and the archived root length is stored in a
u32 field, so every document a real run serializes faithfully satisfies
this. -/
def MachineDoc (d : HeapDoc) : Prop :=
  d.binding < 4294967296 ∧ d.flags < 256 ∧ d.root.length < 4294967296

instance (d : HeapDoc) : Decidable (MachineDoc d) := by
  unfold MachineDoc; infer_instance

theorem parseDocs_encDocs {docs : List HeapDoc} (h : ∀ d ∈ docs, MachineDoc d) :
    parseDocs docs.length (docs.flatMap encDoc) = some docs := by
  induction docs with
  | nil => rfl
  | cons d ds ih =>
    obtain ⟨hb, hf, hr⟩ := h d (by simp)
    have hbs : encDoc d ++ ds.flatMap encDoc =
        d.binding % 256 :: (d.binding / 256 % 256) :: (d.binding / 65536 % 256) ::
        (d.binding / 16777216 % 256) :: (d.flags % 256) ::
        (d.root.length % 256) :: (d.root.length / 256 % 256) ::
        (d.root.length / 65536 % 256) :: (d.root.length / 16777216 % 256) ::
        (d.root ++ ds.flatMap encDoc) := by
      simp [encDoc, encU32]
    simp only [List.length_cons, List.flatMap_cons]
    rw [hbs, parseDocs, dif_pos (by simp)]
    have htake4 : List.take 4 (d.binding % 256 :: (d.binding / 256 % 256) ::
        (d.binding / 65536 % 256) :: (d.binding / 16777216 % 256) :: (d.flags % 256) ::
        (d.root.length % 256) :: (d.root.length / 256 % 256) ::
        (d.root.length / 65536 % 256) :: (d.root.length / 16777216 % 256) ::
        (d.root ++ ds.flatMap encDoc)) = encU32 d.binding := rfl
    have hdrop5take : List.take 4 ((d.root.length % 256) :: (d.root.length / 256 % 256) ::
        (d.root.length / 65536 % 256) :: (d.root.length / 16777216 % 256) ::
        (d.root ++ ds.flatMap encDoc)) = encU32 d.root.length := rfl
    simp only [htake4, List.drop_succ_cons, List.drop_zero, hdrop5take,
      List.getD_cons_succ, List.getD_cons_zero]
    rw [decU32_encU32_of_lt hb, decU32_encU32_of_lt hr]
    rw [if_pos (by simp)]
    rw [List.take_left, List.drop_left]
    rw [ih (fun x hx => h x (by simp [hx]))]
    simp [Nat.mod_eq_of_lt hf]

theorem decodeArchive_archive {docs : List HeapDoc} (h : ∀ d ∈ docs, MachineDoc d)
    (hn : docs.length < 4294967296) :
    decodeArchive (archive docs) = docs := by
  have ht : (archive docs).take 4 = encU32 docs.length := by
    unfold archive
    rw [List.take_append_of_le_length (by simp [encU32]),
      List.take_of_length_le (by simp [encU32])]
  have hd : (archive docs).drop 4 = docs.flatMap encDoc := by
    unfold archive
    rw [List.drop_append_of_le_length (by simp [encU32]),
      List.drop_of_length_le (by simp [encU32])]
    simp
  unfold decodeArchive
  rw [ht, hd, decU32_encU32_of_lt hn, parseDocs_encDocs h]
  rfl

/-- parseDocs never produces more documents than it has input bytes. -/
theorem parseDocs_length_le : ∀ (n : Nat) (bs : List Nat) (l : List HeapDoc),
    parseDocs n bs = some l → l.length ≤ bs.length := by
  intro n
  induction n with
  | zero =>
    intro bs l h
    cases bs with
    | nil => cases h; simp
    | cons x xs => exact absurd h (by rw [parseDocs]; simp)
  | succ n ih =>
    intro bs l h
    simp only [parseDocs] at h
    split at h
    · next h9 =>
      split at h
      · next hle =>
        cases hop : parseDocs n ((bs.drop 9).drop (decU32 ((bs.drop 5).take 4))) with
        | none => rw [hop] at h; simp at h
        | some tl =>
          rw [hop] at h
          simp only [Option.map] at h
          cases h
          have := ih _ _ hop
          simp only [List.length_drop] at this ⊢
          simp only [List.length_cons]
          omega
      · exact absurd h (by simp)
    · exact absurd h (by simp)

theorem decodeArchive_length_le (bs : List Nat) :
    (decodeArchive bs).length ≤ bs.length := by
  unfold decodeArchive
  cases hop : parseDocs (decU32 (bs.take 4)) (bs.drop 4) with
  | none => simp
  | some l =>
    have := parseDocs_length_le _ _ _ hop
    simp only [Option.getD_some]
    simp only [List.length_drop] at this
    omega

/-! ## SpillWriter (spill.rs lines 10-154)

The spill file is modelled as the list of bytes written so far; the file
cursor always sits at the end (the writer only appends, and SpillWriter::new
asserts the initial offset is zero). -/

/-- SpillWriter mirrors the struct of the same name: the spill file bytes
and the recorded segment ranges. -/
structure SpillWriter where
  ranges : List (Nat × Nat)
  spill : List Nat
  deriving DecidableEq, Repr

/-- emptyWriter is the state SpillWriter::new builds around a fresh file. -/
def emptyWriter : SpillWriter := ⟨[], []⟩

/-- WErr is the abnormal outcome of write_segment: the source's
assert!(cur_bytes_per_doc > last_bytes_per_doc) on line 90 panics; the
model makes that panic an explicit error value.  (Model file writes cannot
fail, so no io variant is needed on this path.) -/
inductive WErr where
  | assertFail
  deriving DecidableEq, Repr

/-- chunkDocs projects last_bytes_per_doc into the number of documents
for the next chunk (spill.rs lines 58-61): no more than the remaining
documents, no fewer than one. -/
def chunkDocs (ctsS lastBpd len : Nat) : Nat :=
  min (max 1 (ctsS / lastBpd)) len

/-- curBpdOf is the corrected bytes-per-document estimate observed after
archiving the candidate chunk (spill.rs line 69). -/
def curBpdOf (ctsS lastBpd : Nat) (segment : List HeapDoc) : Nat :=
  (archive (segment.take (chunkDocs ctsS lastBpd segment.length))).length /
    chunkDocs ctsS lastBpd segment.length

theorem chunkDocs_pos {ctsS lastBpd len : Nat} (h : 0 < len) :
    0 < chunkDocs ctsS lastBpd len := by
  unfold chunkDocs
  apply lt_min
  · exact lt_of_lt_of_le Nat.one_pos (le_max_left _ _)
  · exact h

theorem chunkDocs_le {ctsS lastBpd len : Nat} : chunkDocs ctsS lastBpd len ≤ len :=
  min_le_right _ _

/-- writeSegmentLoop is the chunking loop of SpillWriter::write_segment
(spill.rs lines 54-137).  It returns the grown file contents together
with the list of accepted chunks (each chunk the list of documents that
were archived into it) - the latter is the observable chunk structure
that the byte output flattens, used to state the chunk-bound property.

Per iteration, mirroring the source: chunk_docs is projected from
last_bytes_per_doc (line 58); the chunk is archived; if it has more than
one document and overflows chunk_target_size.end the chunk is retried
with the corrected estimate, where the source asserts the estimate grew
strictly (lines 75-92); otherwise the chunk is compressed and written
behind its 8-byte header (lines 95-116) and the loop advances (lines
135-136). -/
def writeSegmentLoop (ctsS ctsE : Nat) (lastBpd : Nat) (segment : List HeapDoc)
    (file : List Nat) : Except WErr (List Nat × List (List HeapDoc)) :=
  if hseg : segment = [] then .ok (file, [])
  else
    if hretry : 1 < chunkDocs ctsS lastBpd segment.length ∧
        ctsE < (archive (segment.take (chunkDocs ctsS lastBpd segment.length))).length then
      if hgrow : lastBpd < curBpdOf ctsS lastBpd segment then
        writeSegmentLoop ctsS ctsE (curBpdOf ctsS lastBpd segment) segment file
      else .error .assertFail
    else
      match writeSegmentLoop ctsS ctsE (curBpdOf ctsS lastBpd segment)
          (segment.drop (chunkDocs ctsS lastBpd segment.length))
          (file ++ chunkBytes (segment.take (chunkDocs ctsS lastBpd segment.length))) with
      | .error e => .error e
      | .ok (file', groups) =>
        .ok (file', segment.take (chunkDocs ctsS lastBpd segment.length) :: groups)
termination_by (segment.length, ctsS - lastBpd)
decreasing_by
  · apply Prod.Lex.right
    have h1 : 1 < min (max 1 (ctsS / lastBpd)) segment.length := hretry.1
    have hmax : 1 < max 1 (ctsS / lastBpd) := lt_of_lt_of_le h1 (min_le_left _ _)
    have h2 : 2 ≤ ctsS / lastBpd := by
      rcases Nat.le_total (ctsS / lastBpd) 1 with h | h
      · rw [Nat.max_eq_left h] at hmax; omega
      · rw [Nat.max_eq_right h] at hmax; omega
    have hpos : 0 < lastBpd := by
      rcases Nat.eq_zero_or_pos lastBpd with h | h
      · rw [h] at h2; simp at h2
      · exact h
    have h3 : 2 * lastBpd ≤ ctsS := (Nat.le_div_iff_mul_le hpos).mp h2
    omega
  · apply Prod.Lex.left
    have hlen : 0 < segment.length := List.length_pos.mpr hseg
    have hmin : 0 < chunkDocs ctsS lastBpd segment.length := chunkDocs_pos hlen
    simp only [List.length_drop]
    have hle2 : chunkDocs ctsS lastBpd segment.length ≤ segment.length :=
      chunkDocs_le
    omega

/-- write_segment mirrors SpillWriter::write_segment (spill.rs lines
37-143): an empty segment is a no-op returning 0 written bytes and
recording nothing; otherwise the bytes-per-document estimate is seeded
from the first document's archived root (line 48), the chunking loop
runs, and the new segment range is recorded.  The returned number is the
written size (end - begin). -/
def SpillWriter.write_segment (w : SpillWriter) (segment : List HeapDoc)
    (cts : Nat × Nat) : Except WErr (SpillWriter × Nat) :=
  match segment with
  | [] => .ok (w, 0)
  | d :: _ =>
    match writeSegmentLoop cts.1 cts.2 (rootArchive d.root).length segment w.spill with
    | .error e => .error e
    | .ok (file', _groups) =>
      .ok (⟨w.ranges ++ [(w.spill.length, file'.length)], file'⟩,
        file'.length - w.spill.length)

/-! ## Segment reader (spill.rs lines 156-288)

A Segment holds the documents of the currently decoded chunk and the
range of the not-yet-read remainder of its spill-file region.  The
backing buffer of the source is not modelled separately: docs are the
decoded documents themselves. -/

/-- SegErr distinguishes the two abnormal outcomes of Segment::new /
Segment::next in the source: ioErr is an io::Error return (short read, or
lz4 decompression failure), assertFail is a panic of one of the assert!
macros (lines 175, 187-190, 203-207, 216). -/
inductive SegErr where
  | ioErr
  | assertFail
  deriving DecidableEq, Repr

deriving instance DecidableEq for Except

/-- Segment mirrors the struct of the same name (sans the shared keys Arc,
which the model passes explicitly where needed, and the backing buffer). -/
structure Segment where
  docs : List HeapDoc
  next : Nat × Nat
  deriving DecidableEq, Repr

instance : Inhabited Segment := ⟨⟨[], (0, 0)⟩⟩

/-- Segment.new mirrors Segment::new (spill.rs lines 170-224): seek to
range.start, read the 8-byte header, check the implied next-chunk range,
read the compressed chunk, decompress it checking the decompressed count
against the header's raw length, decode the archived documents, and check
the chunk is non-empty.  Reads past the end of the file are io errors
(read_exact), the checks are assert! panics, exactly as in the source. -/
def Segment.new (file : List Nat) (range : Nat × Nat) : Except SegErr Segment :=
  if range.1 = range.2 then .error .assertFail
  else if file.length < range.1 + 8 then .error .ioErr
  else
    let header := (file.drop range.1).take 8
    let lz4Len := decU32 (header.take 4)
    let rawLen := decU32 (header.drop 4)
    let nxt := (range.1 + 8 + lz4Len, range.2)
    if range.2 < nxt.1 then .error .assertFail
    else if file.length < range.1 + 8 + lz4Len then .error .ioErr
    else
      match decompress ((file.drop (range.1 + 8)).take lz4Len) rawLen with
      | none => .error .ioErr
      | some (cnt, data) =>
        if cnt ≠ rawLen then .error .assertFail
        else
          let docs := decodeArchive data
          if docs.length = 0 then .error .assertFail
          else .ok ⟨docs, nxt⟩

/-- Segment.head mirrors Segment::head (line 229): the first document of
the decoded chunk.  The source indexes docs[0], which cannot be
out-of-bounds because of the invariant proved below; the model totalizes
with the default document. -/
def Segment.head (s : Segment) : HeapDoc := s.docs.headI

/-- Segment.next mirrors Segment::next (lines 236-256): step within the
decoded chunk when more documents remain, otherwise read the next chunk
of the region when bytes remain, otherwise the segment is exhausted. -/
def Segment.step (s : Segment) (file : List Nat) : Except SegErr (Option Segment) :=
  if s.docs.length ≠ 1 then .ok (some ⟨s.docs.tail, s.next⟩)
  else if s.next.1 < s.next.2 then (Segment.new file s.next).map some
  else .ok none

/-- Segment.mu is the termination measure of a segment: documents still in
the decoded chunk plus unread region bytes.  Every Segment.next strictly
decreases it (next_mu below), because in this model a chunk always
occupies strictly more file bytes than it holds documents. -/
def Segment.mu (s : Segment) : Nat := s.docs.length + (s.next.2 - s.next.1)

/-- hdrLz4 is the compressed-length header field a reader parses at the
given chunk start offset. -/
def hdrLz4 (file : List Nat) (start : Nat) : Nat :=
  decU32 (((file.drop start).take 8).take 4)

/-- hdrRaw is the raw-length header field a reader parses at the given
chunk start offset. -/
def hdrRaw (file : List Nat) (start : Nat) : Nat :=
  decU32 (((file.drop start).take 8).drop 4)

theorem Segment.new_inv {file : List Nat} {r : Nat × Nat} {s : Segment}
    (h : Segment.new file r = .ok s) : ∃ data : List Nat,
    s.docs = decodeArchive data ∧
    s.next = (r.1 + 8 + hdrLz4 file r.1, r.2) ∧
    (file.drop (r.1 + 8)).take (hdrLz4 file r.1) = hdrRaw file r.1 :: data ∧
    data.length = hdrRaw file r.1 ∧
    r.1 + 8 + hdrLz4 file r.1 ≤ r.2 ∧
    r.1 + 8 + hdrLz4 file r.1 ≤ file.length ∧
    s.docs ≠ [] ∧ r.1 ≠ r.2 := by
  simp only [Segment.new] at h
  split at h
  · exact absurd h (by simp)
  next hner =>
  split at h
  · exact absurd h (by simp)
  next hhdr =>
  split at h
  · exact absurd h (by simp)
  next hbnd =>
  split at h
  · exact absurd h (by simp)
  next hfl =>
  split at h
  · exact absurd h (by simp)
  next cnt data hdec =>
    split at h
    · exact absurd h (by simp)
    next hcnt =>
    split at h
    · exact absurd h (by simp)
    next hz =>
      cases h
      simp only [decompress] at hdec
      split at hdec
      · exact absurd hdec (by simp)
      next n dta htk =>
        split at hdec
        · next hcond =>
          simp only [Option.some.injEq, Prod.mk.injEq] at hdec
          obtain ⟨rfl, rfl⟩ := hdec
          simp only [ne_eq, not_not] at hcnt
          unfold hdrLz4 hdrRaw
          refine ⟨dta, rfl, rfl, ?_, ?_, ?_, ?_, ?_, hner⟩
          · rw [htk, hcnt]
          · rw [hcond.1, hcnt]
          · omega
          · omega
          · simpa [List.length_eq_zero] using hz
        · exact absurd hdec (by simp)

theorem Segment.new_nonempty {file : List Nat} {r : Nat × Nat} {s : Segment}
    (h : Segment.new file r = .ok s) : s.docs ≠ [] := by
  obtain ⟨data, _, _, _, _, _, _, hne, _⟩ := Segment.new_inv h
  exact hne

theorem Segment.new_next_range {file : List Nat} {r : Nat × Nat} {s : Segment}
    (h : Segment.new file r = .ok s) :
    s.next.2 = r.2 ∧ r.1 + 8 < s.next.1 ∧ s.next.1 ≤ r.2 := by
  obtain ⟨data, hdocs, hnext, htake, hdata, hbound, hfile, hne, hner⟩ :=
    Segment.new_inv h
  have hlen : 0 < hdrLz4 file r.1 := by
    have h0 : 0 < ((file.drop (r.1 + 8)).take (hdrLz4 file r.1)).length := by
      rw [htake]; simp
    simp only [List.length_take, List.length_drop] at h0
    omega
  rw [hnext]
  exact ⟨rfl, by omega, by simpa using hbound⟩

theorem Segment.new_mu {file : List Nat} {r : Nat × Nat} {s : Segment}
    (h : Segment.new file r = .ok s) : s.mu < 1 + (r.2 - r.1) := by
  obtain ⟨data, hdocs, hnext, htake, hdata, hbound, hfile, hne, hner⟩ :=
    Segment.new_inv h
  have hdlen : (decodeArchive data).length ≤ data.length := decodeArchive_length_le data
  have htklen : ((file.drop (r.1 + 8)).take (hdrLz4 file r.1)).length = data.length + 1 := by
    rw [htake]; simp
  simp only [List.length_take, List.length_drop] at htklen
  simp only [Segment.mu, hdocs, hnext]
  omega

theorem Segment.next_cases {s : Segment} {file : List Nat} {t : Segment}
    (hne : s.docs ≠ []) (h : Segment.step s file = .ok (some t)) :
    (s.docs.length ≠ 1 ∧ t = ⟨s.docs.tail, s.next⟩) ∨
    (s.docs.length = 1 ∧ s.next.1 < s.next.2 ∧ Segment.new file s.next = .ok t) := by
  simp only [Segment.step] at h
  split at h
  · next h1 =>
    left
    cases h
    exact ⟨h1, rfl⟩
  · next h1 =>
    split at h
    · next h2 =>
      right
      cases hnew : Segment.new file s.next with
      | error e =>
        rw [hnew] at h
        exact absurd h (by simp [Except.map])
      | ok t' =>
        rw [hnew] at h
        simp only [Except.map, Except.ok.injEq, Option.some.injEq] at h
        subst h
        simp only [not_not] at h1
        exact ⟨h1, h2, rfl⟩
    · exact absurd h (by simp)

theorem Segment.next_nonempty {s : Segment} {file : List Nat} {t : Segment}
    (hne : s.docs ≠ []) (h : Segment.step s file = .ok (some t)) : t.docs ≠ [] := by
  rcases Segment.next_cases hne h with ⟨h1, rfl⟩ | ⟨_, _, hnew⟩
  · have hpos : 0 < s.docs.length := List.length_pos.mpr hne
    apply List.ne_nil_of_length_pos
    simp only [List.length_tail]
    omega
  · exact Segment.new_nonempty hnew

theorem Segment.next_mu {s : Segment} {file : List Nat} {t : Segment}
    (hne : s.docs ≠ []) (h : Segment.step s file = .ok (some t)) : t.mu < s.mu := by
  rcases Segment.next_cases hne h with ⟨h1, rfl⟩ | ⟨h1, h2, hnew⟩
  · simp only [Segment.mu, List.length_tail]
    have : 0 < s.docs.length := List.length_pos.mpr hne
    omega
  · have := Segment.new_mu hnew
    simp only [Segment.mu] at *
    omega

/-! ### Non-empty segments

Every segment the drainer manipulates satisfies the source invariant that
its decoded chunk is non-empty (claim about Segment::new / next below).
VSeg packages a segment with that invariant so that the merge loops can
recurse on the mu measure. -/

/-- VSeg is a Segment together with the source invariant that its decoded
chunk holds at least one document. -/
def VSeg := {s : Segment // s.docs ≠ []}

instance : DecidableEq VSeg := Subtype.instDecidableEq

/-- vnew wraps Segment.new, carrying the non-emptiness invariant. -/
def vnew (file : List Nat) (range : Nat × Nat) : Except SegErr VSeg :=
  match hnew : Segment.new file range with
  | .error e => .error e
  | .ok s => .ok ⟨s, Segment.new_nonempty hnew⟩

/-- vnext wraps Segment.next, carrying the non-emptiness invariant. -/
def vnext (s : VSeg) (file : List Nat) : Except SegErr (Option VSeg) :=
  match hnxt : Segment.step s.val file with
  | .error e => .error e
  | .ok none => .ok none
  | .ok (some t) => .ok (some ⟨t, Segment.next_nonempty s.prop hnxt⟩)

theorem vnext_mu {s : VSeg} {file : List Nat} {t : VSeg}
    (h : vnext s file = .ok (some t)) : t.val.mu < s.val.mu := by
  unfold vnext at h
  split at h
  · exact absurd h (by simp)
  · exact absurd h (by simp)
  · next t' hnxt =>
    cases h
    exact Segment.next_mu s.prop hnxt

theorem vnext_inv {s : VSeg} {file : List Nat} {o : Option VSeg}
    (h : vnext s file = .ok o) :
    Segment.step s.val file = .ok (o.map Subtype.val) := by
  unfold vnext at h
  split at h
  · exact absurd h (by simp)
  · next hnxt =>
    cases h
    simpa using hnxt
  · next t' hnxt =>
    cases h
    simpa using hnxt

/-- collectSeg reads a segment to exhaustion through head and next,
exactly the chunk-by-chunk reading loop of the round-trip test
(spill.rs lines 454-487): record head(), step to the next document (or
next chunk), repeat until the segment reports None. -/
def collectSeg (file : List Nat) (s : VSeg) : Except SegErr (List HeapDoc) :=
  match h : vnext s file with
  | .error e => .error e
  | .ok none => .ok [s.val.head]
  | .ok (some t) =>
    match collectSeg file t with
    | .error e => .error e
    | .ok l => .ok (s.val.head :: l)
termination_by s.val.mu
decreasing_by
  exact vnext_mu h

/-- readSegment opens a recorded range with Segment::new and then reads
it to exhaustion, as the reader side of the round-trip property does. -/
def readSegment (file : List Nat) (range : Nat × Nat) : Except SegErr (List HeapDoc) :=
  match vnew file range with
  | .error e => .error e
  | .ok s => collectSeg file s

/-! ## Key extraction and the Segment order (spill.rs lines 259-288)

Extractor lives in this repository but outside the excerpt. -/

/-- Modelled from the spec: an Extractor projects one ordered key
component out of a document root ("given a document, produces an ordered
key tuple"); the component carrier is Nat, an arbitrary totally ordered,
decidable domain. -/
def Extractor := Node → Nat

/-- Modelled from the spec: Extractor::compare_key compares the projected
keys of two documents component by component, in extractor order, without
materializing them ("total order over a document's projected key"). -/
def compare_key (es : List Extractor) (a b : Node) : Ordering :=
  match es with
  | [] => .eq
  | e :: es => (compare (e a) (e b)).then (compare_key es a b)

/-- projKey materializes the key tuple an extractor list projects from a
document root; compare_key is exactly lexicographic comparison of
projected keys (compare_key_eq_cmpList below). -/
def projKey (es : List Extractor) (a : Node) : List Nat :=
  es.map (fun e => e a)

/-- cmpList is lexicographic comparison of equal-length Nat tuples. -/
def cmpList : List Nat → List Nat → Ordering
  | [], [] => .eq
  | [], _ :: _ => .lt
  | _ :: _, [] => .gt
  | a :: as, b :: bs => (compare a b).then (cmpList as bs)

theorem compare_key_eq_cmpList (es : List Extractor) (a b : Node) :
    compare_key es a b = cmpList (projKey es a) (projKey es b) := by
  induction es with
  | nil => rfl
  | cons e es ih => simp [compare_key, projKey, cmpList, ih, List.map]

theorem cmpList_eq_iff {k l : List Nat} : cmpList k l = .eq ↔ k = l := by
  induction k generalizing l with
  | nil => cases l <;> simp [cmpList]
  | cons a as ih =>
    cases l with
    | nil => simp [cmpList]
    | cons b bs =>
      simp [cmpList, Ordering.then_eq_eq, Nat.compare_eq_eq, ih]

theorem cmpList_refl (k : List Nat) : cmpList k k = .eq := cmpList_eq_iff.mpr rfl

theorem cmpList_swap (k l : List Nat) : (cmpList k l).swap = cmpList l k := by
  induction k generalizing l with
  | nil => cases l <;> simp [cmpList, Ordering.swap]
  | cons a as ih =>
    cases l with
    | nil => simp [cmpList, Ordering.swap]
    | cons b bs =>
      simp only [cmpList]
      cases hc : compare a b with
      | lt =>
        have : compare b a = .gt := by
          rw [← Nat.compare_swap, hc]; rfl
        simp [Ordering.then, this, Ordering.swap]
      | gt =>
        have : compare b a = .lt := by
          rw [← Nat.compare_swap, hc]; rfl
        simp [Ordering.then, this, Ordering.swap]
      | eq =>
        have : compare b a = .eq := by
          rw [← Nat.compare_swap, hc]; rfl
        simp [Ordering.then, this, ih]

theorem cmpList_gt_iff_lt {k l : List Nat} : cmpList k l = .gt ↔ cmpList l k = .lt := by
  rw [← cmpList_swap l k]
  cases cmpList l k <;> simp [Ordering.swap]

theorem cmpList_trans_lt {a b c : List Nat} (h1 : cmpList a b = .lt)
    (h2 : cmpList b c = .lt) : cmpList a c = .lt := by
  induction a generalizing b c with
  | nil =>
    cases b with
    | nil => exact absurd h1 (by simp [cmpList])
    | cons x xs =>
      cases c with
      | nil => exact absurd h2 (by simp [cmpList])
      | cons y ys => simp [cmpList]
  | cons p ps ih =>
    cases b with
    | nil => exact absurd h1 (by simp [cmpList])
    | cons x xs =>
      cases c with
      | nil => exact absurd h2 (by simp [cmpList])
      | cons y ys =>
        simp only [cmpList, Ordering.then_eq_lt, Nat.compare_eq_lt, Nat.compare_eq_eq] at *
        rcases h1 with h1 | ⟨rfl, h1⟩ <;> rcases h2 with h2 | ⟨rfl, h2⟩
        · exact .inl (lt_trans h1 h2)
        · exact .inl h1
        · exact .inl h2
        · exact .inr ⟨rfl, ih h1 h2⟩

theorem cmpList_lt_of_lt_of_eq {a b c : List Nat} (h1 : cmpList a b = .lt)
    (h2 : cmpList b c = .eq) : cmpList a c = .lt := by
  rw [cmpList_eq_iff] at h2; rwa [h2] at h1

theorem cmpList_lt_of_eq_of_lt {a b c : List Nat} (h1 : cmpList a b = .eq)
    (h2 : cmpList b c = .lt) : cmpList a c = .lt := by
  rw [cmpList_eq_iff] at h1; rwa [← h1] at h2

/-- cmpBK lexicographically compares (binding, projected key) pairs: the
delivery order the drainer guarantees. -/
def cmpBK (x y : Nat × List Nat) : Ordering :=
  (compare x.1 y.1).then (cmpList x.2 y.2)

/-- ltBK is the strict (binding, key) order. -/
def ltBK (x y : Nat × List Nat) : Prop := cmpBK x y = .lt

instance : DecidableRel ltBK := fun x y => by unfold ltBK; infer_instance

/-- docBK projects the (binding, key) pair of a document under the shared
per-binding extractor table. -/
def docBK (keys : List (List Extractor)) (d : HeapDoc) : Nat × List Nat :=
  (d.binding, projKey (keys.getD d.binding []) d.root)

theorem cmpBK_eq_iff {x y : Nat × List Nat} : cmpBK x y = .eq ↔ x = y := by
  cases x; cases y
  simp [cmpBK, Ordering.then_eq_eq, Nat.compare_eq_eq, cmpList_eq_iff, Prod.ext_iff]

theorem cmpBK_swap (x y : Nat × List Nat) : (cmpBK x y).swap = cmpBK y x := by
  cases x with
  | mk b1 k1 =>
    cases y with
    | mk b2 k2 =>
      simp only [cmpBK]
      cases hc : compare b1 b2 with
      | lt =>
        have : compare b2 b1 = .gt := by rw [← Nat.compare_swap, hc]; rfl
        simp [Ordering.then, this, Ordering.swap]
      | gt =>
        have : compare b2 b1 = .lt := by rw [← Nat.compare_swap, hc]; rfl
        simp [Ordering.then, this, Ordering.swap]
      | eq =>
        have : compare b2 b1 = .eq := by rw [← Nat.compare_swap, hc]; rfl
        simp [Ordering.then, this, cmpList_swap]

theorem cmpBK_gt_iff_lt {x y : Nat × List Nat} : cmpBK x y = .gt ↔ cmpBK y x = .lt := by
  rw [← cmpBK_swap y x]
  cases cmpBK y x <;> simp [Ordering.swap]

theorem ltBK_trans {x y z : Nat × List Nat} (h1 : ltBK x y) (h2 : ltBK y z) : ltBK x z := by
  unfold ltBK cmpBK at *
  simp only [Ordering.then_eq_lt, Nat.compare_eq_lt, Nat.compare_eq_eq] at *
  rcases h1 with h1 | ⟨e1, h1⟩ <;> rcases h2 with h2 | ⟨e2, h2⟩
  · exact .inl (lt_trans h1 h2)
  · exact .inl (by omega)
  · exact .inl (by omega)
  · exact .inr ⟨by omega, cmpList_trans_lt h1 h2⟩

theorem ltBK_irrefl (x : Nat × List Nat) : ¬ ltBK x x := by
  unfold ltBK cmpBK
  simp [Ordering.then_eq_lt, Nat.compare_eq_lt, Nat.compare_eq_eq, cmpList_refl]

theorem ltBK_of_le_of_ne {x y : Nat × List Nat} (h1 : cmpBK x y ≠ .gt)
    (h2 : x ≠ y) : ltBK x y := by
  unfold ltBK
  cases hc : cmpBK x y with
  | lt => rfl
  | eq => exact absurd (cmpBK_eq_iff.mp hc) h2
  | gt => exact absurd hc h1

theorem ltBK_of_le_of_lt {x y z : Nat × List Nat} (h1 : cmpBK x y ≠ .gt)
    (h2 : ltBK y z) : ltBK x z := by
  cases hc : cmpBK x y with
  | lt => exact ltBK_trans hc h2
  | eq => rw [cmpBK_eq_iff.mp hc]; exact h2
  | gt => exact absurd hc h1

theorem ltBK_le_trans {x y z : Nat × List Nat} (h1 : ltBK x y)
    (h2 : cmpBK y z ≠ .gt) : ltBK x z := by
  cases hc : cmpBK y z with
  | lt => exact ltBK_trans h1 hc
  | eq => rw [← cmpBK_eq_iff.mp hc]; exact h1
  | gt => exact absurd hc h2

/-- cmpSeg mirrors impl Ord for Segment (spill.rs lines 259-277): compare
the head documents by binding, then by key under the left head's binding
extractors, and on full ties prefer the segment whose next-chunk offset
is smaller - the segment written into the spill file first.  The source
indexes keys with the binding and would panic out of bounds; the model
totalizes the lookup with getD (the drainer compares only segments whose
binding indexes the shared table). -/
def cmpSeg (keys : List (List Extractor)) (s t : Segment) : Ordering :=
  (compare s.head.binding t.head.binding).then
    ((compare_key (keys.getD s.head.binding []) s.head.root t.head.root).then
      (compare s.next.1 t.next.1))

/-- segTriple is the (binding, key, offset) triple cmpSeg compares
lexicographically. -/
def segTriple (keys : List (List Extractor)) (s : Segment) : (Nat × List Nat) × Nat :=
  (docBK keys s.head, s.next.1)

/-- cmpT compares (binding-key, offset) pairs lexicographically. -/
def cmpT (x y : (Nat × List Nat) × Nat) : Ordering :=
  (cmpBK x.1 y.1).then (compare x.2 y.2)

theorem cmpSeg_eq_cmpT (keys : List (List Extractor)) (s t : Segment) :
    cmpSeg keys s t = cmpT (segTriple keys s) (segTriple keys t) := by
  unfold cmpSeg cmpT segTriple docBK cmpBK
  simp only
  cases hb : compare s.head.binding t.head.binding with
  | lt => simp [Ordering.then]
  | gt => simp [Ordering.then]
  | eq =>
    have hbe : s.head.binding = t.head.binding := Nat.compare_eq_eq.mp hb
    rw [compare_key_eq_cmpList, hbe]
    simp [Ordering.then]

theorem cmpT_eq_iff {x y : (Nat × List Nat) × Nat} : cmpT x y = .eq ↔ x = y := by
  cases x; cases y
  simp [cmpT, Ordering.then_eq_eq, cmpBK_eq_iff, Nat.compare_eq_eq, Prod.ext_iff]

theorem cmpT_gt_iff_lt {x y : (Nat × List Nat) × Nat} : cmpT x y = .gt ↔ cmpT y x = .lt := by
  unfold cmpT
  cases hc : cmpBK x.1 y.1 with
  | lt =>
    have : cmpBK y.1 x.1 = .gt := cmpBK_gt_iff_lt.mpr hc
    simp [Ordering.then, this, hc]
  | gt =>
    have : cmpBK y.1 x.1 = .lt := cmpBK_gt_iff_lt.mp hc
    simp [Ordering.then, this, hc]
  | eq =>
    have : cmpBK y.1 x.1 = .eq := by
      rw [cmpBK_eq_iff] at hc ⊢; exact hc.symm
    simp only [Ordering.then, this, hc]
    simp [Nat.compare_eq_gt, Nat.compare_eq_lt]

theorem cmpT_trans_lt {x y z : (Nat × List Nat) × Nat} (h1 : cmpT x y = .lt)
    (h2 : cmpT y z = .lt) : cmpT x z = .lt := by
  unfold cmpT at *
  simp only [Ordering.then_eq_lt, Nat.compare_eq_lt] at *
  rcases h1 with h1 | ⟨e1, h1⟩ <;> rcases h2 with h2 | ⟨e2, h2⟩
  · exact .inl (ltBK_trans h1 h2)
  · rw [cmpBK_eq_iff] at e2; rw [e2] at h1; exact .inl h1
  · rw [cmpBK_eq_iff] at e1; rw [← e1] at h2; exact .inl h2
  · rw [cmpBK_eq_iff] at e1 e2
    exact .inr ⟨by rw [e1, e2, cmpBK_eq_iff], by omega⟩

theorem cmpT_le_trans {x y z : (Nat × List Nat) × Nat} (h1 : cmpT x y ≠ .gt)
    (h2 : cmpT y z ≠ .gt) : cmpT x z ≠ .gt := by
  cases hc1 : cmpT x y with
  | gt => exact absurd hc1 h1
  | eq =>
    rw [cmpT_eq_iff] at hc1; rw [hc1]; exact h2
  | lt =>
    cases hc2 : cmpT y z with
    | gt => exact absurd hc2 h2
    | eq => rw [cmpT_eq_iff] at hc2; rw [← hc2]; simp [hc1]
    | lt => simp [cmpT_trans_lt hc1 hc2]

theorem cmpT_total {x y : (Nat × List Nat) × Nat} (h : cmpT x y = .gt) :
    cmpT y x ≠ .gt := by
  rw [cmpT_gt_iff_lt] at h
  simp [h]

theorem cmpSeg_le_trans {keys : List (List Extractor)} {a b c : Segment}
    (h1 : cmpSeg keys a b ≠ .gt) (h2 : cmpSeg keys b c ≠ .gt) :
    cmpSeg keys a c ≠ .gt := by
  rw [cmpSeg_eq_cmpT] at *
  exact cmpT_le_trans h1 h2

theorem cmpSeg_total {keys : List (List Extractor)} {a b : Segment}
    (h : cmpSeg keys a b = .gt) : cmpSeg keys b a ≠ .gt := by
  rw [cmpSeg_eq_cmpT] at *
  exact cmpT_total h

/-- cmpSeg dominance on the (binding, key) prefix: a segment that is
no greater than another in the full segment order is also no greater on
(binding, key) alone. -/
theorem cmpSeg_le_BK {keys : List (List Extractor)} {a b : Segment}
    (h : cmpSeg keys a b ≠ .gt) :
    cmpBK (docBK keys a.head) (docBK keys b.head) ≠ .gt := by
  rw [cmpSeg_eq_cmpT] at h
  unfold cmpT segTriple at h
  intro hc
  simp only at h
  rw [hc] at h
  exact h rfl

/-! ## The drainer heap

The source keeps segments in a BinaryHeap of Reverse Segment, so pop
yields a least segment in cmpSeg order.  The model keeps the live
segments in a list and pops a least element explicitly; the comparator
is total and - over spill files written by SpillWriter - antisymmetric
(distinct live segments differ in next-chunk offset), so which least
element a real binary heap returns is determined. -/

/-- popMin removes a least element (in cmpSeg order over the shared keys
table) from a list of live segments; none on the empty heap.  This is
the model of BinaryHeap::pop over Reverse Segment. -/
def popMin (keys : List (List Extractor)) : List VSeg → Option (VSeg × List VSeg)
  | [] => none
  | x :: xs =>
    match popMin keys xs with
    | none => some (x, xs)
    | some (m, r) =>
      if cmpSeg keys x.val m.val ≠ .gt then some (x, xs) else some (m, x :: r)

theorem popMin_none_iff {keys : List (List Extractor)} {l : List VSeg} :
    popMin keys l = none ↔ l = [] := by
  cases l with
  | nil => simp [popMin]
  | cons x xs =>
    simp only [popMin]
    cases popMin keys xs with
    | none => simp
    | some p =>
      cases p with
      | mk m r => by_cases h : cmpSeg keys x.val m.val ≠ .gt <;> simp [h]

theorem popMin_perm {keys : List (List Extractor)} : ∀ {l : List VSeg} {m : VSeg}
    {r : List VSeg}, popMin keys l = some (m, r) → l.Perm (m :: r) := by
  intro l
  induction l with
  | nil => intro m r h; exact absurd h (by simp [popMin])
  | cons x xs ih =>
    intro m r h
    cases hp : popMin keys xs with
    | none =>
      simp only [popMin, hp, Option.some.injEq, Prod.mk.injEq] at h
      obtain ⟨rfl, rfl⟩ := h
      exact List.Perm.refl _
    | some p =>
      cases p with
      | mk m' r' =>
        simp only [popMin, hp] at h
        split at h
        · simp only [Option.some.injEq, Prod.mk.injEq] at h
          obtain ⟨rfl, rfl⟩ := h
          exact List.Perm.refl _
        · simp only [Option.some.injEq, Prod.mk.injEq] at h
          obtain ⟨rfl, rfl⟩ := h
          exact (List.Perm.cons x (ih hp)).trans (List.Perm.swap m' x r')

theorem popMin_min {keys : List (List Extractor)} : ∀ {l : List VSeg} {m : VSeg}
    {r : List VSeg}, popMin keys l = some (m, r) →
    ∀ s ∈ r, cmpSeg keys m.val s.val ≠ .gt := by
  intro l
  induction l with
  | nil => intro m r h; exact absurd h (by simp [popMin])
  | cons x xs ih =>
    intro m r h
    cases hp : popMin keys xs with
    | none =>
      simp only [popMin, hp, Option.some.injEq, Prod.mk.injEq] at h
      obtain ⟨rfl, rfl⟩ := h
      rw [popMin_none_iff] at hp
      subst hp
      intro s hs
      exact absurd hs (by simp)
    | some p =>
      cases p with
      | mk m' r' =>
        simp only [popMin, hp] at h
        split at h
        · next hle =>
          simp only [Option.some.injEq, Prod.mk.injEq] at h
          obtain ⟨rfl, rfl⟩ := h
          intro s hs
          -- s sits in xs, which permutes to m' :: r' with m' least
          have hperm := popMin_perm hp
          have hmem : s ∈ m' :: r' := hperm.mem_iff.mp hs
          rcases List.mem_cons.mp hmem with rfl | h1
          · exact hle
          · exact cmpSeg_le_trans hle (ih hp s h1)
        · next hgt =>
          simp only [not_not] at hgt
          simp only [Option.some.injEq, Prod.mk.injEq] at h
          obtain ⟨rfl, rfl⟩ := h
          intro s hs
          rcases List.mem_cons.mp hs with rfl | h1
          · exact cmpSeg_total hgt
          · exact ih hp s h1

/-- heapMu is the total measure of a heap: drained work strictly
decreases it. -/
def heapMu (l : List VSeg) : Nat := (l.map (fun s => s.val.mu)).sum

theorem popMin_heapMu {keys : List (List Extractor)} {l : List VSeg} {m : VSeg}
    {r : List VSeg} (h : popMin keys l = some (m, r)) :
    heapMu l = m.val.mu + heapMu r := by
  have hperm := popMin_perm h
  unfold heapMu
  rw [(hperm.map (fun s => s.val.mu)).sum_eq]
  simp

/-! ## SpillDrainer (spill.rs lines 290-406) -/

/-- Modelled from the spec: a Validator decides whether a document
conforms to its binding's schema.  The source's
validate_ok(validator, schema) double Result is collapsed to a Bool
(false = FailedValidation; SchemaError is not distinguished, which only
coarsens the error value of failing runs). -/
def Validator := Node → Bool

/-- Spec mirrors combine::Spec as used by spill.rs (modelled from the
spec, section 3): per binding, the key extractors (spec.keys, shared
with every Segment) and the validator.  The source keeps these in two
parallel tables indexed by binding. -/
structure Spec where
  keys : List (List Extractor)
  validators : List Validator

/-- DrainErr is the abnormal outcome of a drain, mirroring the
combine::Error cases reachable from drain_while plus panics: spillIo is
Error::SpillIO wrapping an io error from Segment reads, failedValidation
is Error::FailedValidation, reductionError stands for an error returned
by the reduction collaborator, and assertFail is a panic (an
out-of-bounds binding index, or a panic inside Segment::new). -/
inductive DrainErr where
  | spillIo
  | assertFail
  | failedValidation
  | reductionError
  deriving DecidableEq, Repr

/-- segErrToDrain mirrors the .map_err(Error::SpillIO) on Segment
operations inside drain_while: io errors become SpillIO, while a panic
stays a panic. -/
def segErrToDrain : SegErr → DrainErr
  | .ioErr => .spillIo
  | .assertFail => .assertFail

/-- Modelled from the spec: the smash reduction collaborator
(combine/mod.rs), with the signature of spec section 6 - it combines two
same-keyed documents (accumulator left, newly popped right) into a
merged document and merged flags, or fails. -/
def Smash := Nat → Node → Nat → Node → Nat → Except DrainErr (Node × Nat)

/-- Delivery records one document handed to the drain_while callback:
the binding, the root, and the FLAG_REDUCED test that the source passes
as the callback's third argument.  didValidate and nReduce additionally
record whether the if must_validate re-validation ran and how many
reductions were applied in the key group - observable instrumentation of
the source's must_validate flag and smash calls. -/
structure Delivery where
  binding : Nat
  root : Node
  reduced : Bool
  didValidate : Bool
  nReduce : Nat
  deriving DecidableEq, Repr

/-- mergeGroup is the inner while of drain_while (spill.rs lines
354-386): while the heap minimum ties with the accumulated document on
(binding, key), pop it, smash it into the accumulator (accumulator as
the left argument), advance the popped segment pushing it back if
non-exhausted, and record that a reduction occurred. -/
def mergeGroup (spec : Spec) (smash : Smash) (file : List Nat) (binding : Nat)
    (doc : Node) (flags : Nat) (mustV : Bool) (nR : Nat) (heap : List VSeg) :
    Except DrainErr (Node × Nat × Bool × Nat × List VSeg) :=
  match hpop : popMin spec.keys heap with
  | none => .ok (doc, flags, mustV, nR, heap)
  | some (peek, rest) =>
    if binding = peek.val.head.binding ∧
        compare_key (spec.keys.getD binding []) doc peek.val.head.root = .eq then
      match smash binding doc flags peek.val.head.root peek.val.head.flags with
      | .error e => .error e
      | .ok (doc', flags') =>
        match hnxt : vnext peek file with
        | .error e => .error (segErrToDrain e)
        | .ok none =>
          mergeGroup spec smash file binding doc' flags' true (nR + 1) rest
        | .ok (some peek') =>
          mergeGroup spec smash file binding doc' flags' true (nR + 1) (peek' :: rest)
    else .ok (doc, flags, mustV, nR, heap)
termination_by heapMu heap
decreasing_by
  · have h1 := popMin_heapMu hpop
    have h2 : 0 < peek.val.mu := by
      have := List.length_pos.mpr peek.prop
      unfold Segment.mu
      omega
    omega
  · have h1 := popMin_heapMu hpop
    have h2 := vnext_mu hnxt
    simp only [heapMu, List.map_cons, List.sum_cons] at *
    omega

/-- drainStep is one iteration of the outer while of drain_while
(spill.rs lines 338-398): pop the least segment, look up its binding's
validator (the source's indexing panics when the binding is out of
bounds), merge every tied document via mergeGroup, re-validate when a
reduction occurred, build the delivery for the callback, and advance the
popped segment, pushing it back if documents remain.  none is returned
when the heap is empty. -/
def drainStep (spec : Spec) (smash : Smash) (file : List Nat) (heap : List VSeg) :
    Except DrainErr (Option (Delivery × List VSeg)) :=
  match popMin spec.keys heap with
  | none => .ok none
  | some (cur, rest) =>
    if hb : cur.val.head.binding < spec.validators.length then
      match mergeGroup spec smash file cur.val.head.binding cur.val.head.root
          cur.val.head.flags false 0 rest with
      | .error e => .error e
      | .ok (doc, flags, mustV, nR, heap') =>
        if mustV ∧ (spec.validators.get ⟨cur.val.head.binding, hb⟩) doc = false then
          .error .failedValidation
        else
          match vnext cur file with
          | .error e => .error (segErrToDrain e)
          | .ok none =>
            .ok (some (⟨cur.val.head.binding, doc, (flags &&& FLAG_REDUCED) != 0,
              mustV, nR⟩, heap'))
          | .ok (some cur') =>
            .ok (some (⟨cur.val.head.binding, doc, (flags &&& FLAG_REDUCED) != 0,
              mustV, nR⟩, cur' :: heap'))
    else .error .assertFail

theorem vseg_mu_pos (s : VSeg) : 0 < s.val.mu := by
  have := List.length_pos.mpr s.prop
  unfold Segment.mu
  omega

theorem mergeGroup_heapMu {spec : Spec} {smash : Smash} {file : List Nat} :
    ∀ (n : Nat) (binding : Nat) (doc : Node) (flags : Nat) (mustV : Bool) (nR : Nat)
      (heap : List VSeg) (res : Node × Nat × Bool × Nat × List VSeg),
      heapMu heap ≤ n →
      mergeGroup spec smash file binding doc flags mustV nR heap = .ok res →
      heapMu res.2.2.2.2 ≤ heapMu heap := by
  intro n
  induction n with
  | zero =>
    intro binding doc flags mustV nR heap res hle h
    rw [mergeGroup] at h
    split at h
    · cases h; exact le_refl _
    · next peek rest hpop =>
      have h1 := popMin_heapMu hpop
      have h2 := vseg_mu_pos peek
      exact absurd hle (by omega)
  | succ n ih =>
    intro binding doc flags mustV nR heap res hle h
    rw [mergeGroup] at h
    split at h
    · cases h; exact le_refl _
    · next peek rest hpop =>
      have h1 := popMin_heapMu hpop
      have h2 := vseg_mu_pos peek
      split at h
      · split at h
        · exact absurd h (by simp)
        · split at h
          · exact absurd h (by simp)
          · next hnxt =>
            have := ih _ _ _ _ _ rest res (by omega) h
            omega
          · next peek' hnxt =>
            have h3 := vnext_mu hnxt
            have h4 : heapMu (peek' :: rest) = peek'.val.mu + heapMu rest := by
              simp [heapMu]
            have := ih _ _ _ _ _ (peek' :: rest) res (by omega) h
            omega
      · cases h; exact le_refl _

theorem drainStep_heapMu {spec : Spec} {smash : Smash} {file : List Nat}
    {heap : List VSeg} {d : Delivery} {heap' : List VSeg}
    (h : drainStep spec smash file heap = .ok (some (d, heap'))) :
    heapMu heap' < heapMu heap := by
  unfold drainStep at h
  split at h
  · exact absurd h (by simp)
  · next cur rest hpop =>
    have h1 := popMin_heapMu hpop
    have h2 := vseg_mu_pos cur
    by_cases hb : cur.val.head.binding < spec.validators.length
    · rw [dif_pos hb] at h
      cases hmg : mergeGroup spec smash file cur.val.head.binding cur.val.head.root
          cur.val.head.flags false 0 rest with
      | error e =>
        simp only [hmg] at h
        exact absurd h (by simp)
      | ok res =>
        obtain ⟨doc, flags, mustV, nR, heap''⟩ := res
        simp only [hmg] at h
        have h3 := mergeGroup_heapMu (heapMu rest) _ _ _ _ _ rest _ (le_refl _) hmg
        simp only at h3
        by_cases hv : mustV = true ∧
            (spec.validators.get ⟨cur.val.head.binding, hb⟩) doc = false
        · rw [if_pos hv] at h
          exact absurd h (by simp)
        · rw [if_neg hv] at h
          cases hnxt : vnext cur file with
          | error e =>
            simp only [hnxt] at h
            exact absurd h (by simp)
          | ok o =>
            simp only [hnxt] at h
            cases o with
            | none =>
              simp only [Except.ok.injEq, Option.some.injEq, Prod.mk.injEq] at h
              obtain ⟨-, rfl⟩ := h
              omega
            | some cur' =>
              have h4 := vnext_mu hnxt
              simp only [Except.ok.injEq, Option.some.injEq, Prod.mk.injEq] at h
              obtain ⟨-, rfl⟩ := h
              have h5 : heapMu (cur' :: heap'') = cur'.val.mu + heapMu heap'' := by
                simp [heapMu]
              omega
    · rw [dif_neg hb] at h
      exact absurd h (by simp)

/-- drain_while mirrors SpillDrainer::drain_while (spill.rs lines
329-405): run drainStep iterations, handing each delivery to the
callback; when the callback returns false the call pauses, returning
true with the heap state kept for a later resumed call; when the heap
runs out the call returns false.  The model callback is a pure function
of (binding, root, FLAG_REDUCED test); the list of deliveries made by
this call is returned alongside, making the callback trace observable.
(In the source the callback runs just before the popped segment is
advanced; the model's drainStep advances first and the pure callback
after, which no pure callback can distinguish.) -/
def drain_while (spec : Spec) (smash : Smash) (file : List Nat)
    (sink : Nat → Node → Bool → Bool) (heap : List VSeg) :
    Except DrainErr (List Delivery × Bool × List VSeg) :=
  match hstep : drainStep spec smash file heap with
  | .error e => .error e
  | .ok none => .ok ([], false, heap)
  | .ok (some (d, heap')) =>
    if sink d.binding d.root d.reduced then
      match drain_while spec smash file sink heap' with
      | .error e => .error e
      | .ok (tr, b, h') => .ok (d :: tr, b, h')
    else .ok ([d], true, heap')
termination_by heapMu heap
decreasing_by
  exact drainStep_heapMu hstep

/-- drainAll drives drain_while with a callback that always continues:
one call that drains everything. -/
def drainAll (spec : Spec) (smash : Smash) (file : List Nat) (heap : List VSeg) :
    Except DrainErr (List Delivery × Bool × List VSeg) :=
  drain_while spec smash file (fun _ _ _ => true) heap

theorem drain_while_true_mu {spec : Spec} {smash : Smash} {file : List Nat}
    {sink : Nat → Node → Bool → Bool} :
    ∀ (n : Nat) (heap : List VSeg) (tr : List Delivery) (h' : List VSeg),
      heapMu heap ≤ n →
      drain_while spec smash file sink heap = .ok (tr, true, h') →
      heapMu h' < heapMu heap := by
  intro n
  induction n with
  | zero =>
    intro heap tr h' hle h
    rw [drain_while] at h
    split at h
    · exact absurd h (by simp)
    · cases h
    · next d heap' hstep =>
      have := drainStep_heapMu hstep
      exact absurd hle (by omega)
  | succ n ih =>
    intro heap tr h' hle h
    rw [drain_while] at h
    split at h
    · exact absurd h (by simp)
    · cases h
    · next d heap' hstep =>
      have h1 := drainStep_heapMu hstep
      split at h
      · split at h
        · exact absurd h (by simp)
        · next tr' b h'' hrec =>
          cases h
          have := ih heap' tr' h' (by omega) hrec
          omega
      · cases h
        omega

/-- drainRepeat mirrors the canonical repeated-drain driver (the
test_heap_merge loop and the pause/resume contract of the spec): call
drain_while with a callback that pauses after every single document,
re-calling it while it reports more documents remain, and concatenate
everything delivered across the calls. -/
def drainRepeat (spec : Spec) (smash : Smash) (file : List Nat) (heap : List VSeg) :
    Except DrainErr (List Delivery) :=
  match hw : drain_while spec smash file (fun _ _ _ => false) heap with
  | .error e => .error e
  | .ok (tr, b, h') =>
    match hb : b with
    | true =>
      match drainRepeat spec smash file h' with
      | .error e => .error e
      | .ok tr' => .ok (tr ++ tr')
    | false => .ok tr
termination_by heapMu heap
decreasing_by
  exact drain_while_true_mu (heapMu heap) heap tr h' (le_refl _) hw

/-- SpillDrainer.new mirrors SpillDrainer::new (spill.rs lines 301-310):
open a Segment per recorded range and collect them as the initial heap. -/
def SpillDrainer.new (file : List Nat) : List (Nat × Nat) → Except SegErr (List VSeg)
  | [] => .ok []
  | r :: rs =>
    match vnew file r with
    | .error e => .error e
    | .ok s =>
      match SpillDrainer.new file rs with
      | .error e => .error e
      | .ok heap => .ok (s :: heap)

/-! ## Characterization of the writer output -/

/-- writeLoop_spec: a successful chunking loop appends exactly the chunk
encodings of its accepted groups, the groups partition the input segment
in order, every group is non-empty, and every group of more than one
document respects the chunk_target_size.end bound on its archived
(pre-compression) size. -/
theorem writeLoop_spec : ∀ (n ctsS ctsE lastBpd : Nat) (segment : List HeapDoc)
    (file file' : List Nat) (groups : List (List HeapDoc)),
    segment.length * (ctsS + 1) + (ctsS - lastBpd) ≤ n →
    writeSegmentLoop ctsS ctsE lastBpd segment file = .ok (file', groups) →
    file' = file ++ groups.flatMap chunkBytes ∧
    groups.flatten = segment ∧
    (∀ g ∈ groups, g ≠ []) ∧
    (∀ g ∈ groups, 1 < g.length → (archive g).length ≤ ctsE) := by
  intro n
  induction n with
  | zero =>
    intro ctsS ctsE lastBpd segment file file' groups hle h
    rw [writeSegmentLoop] at h
    split at h
    · next hseg =>
      subst hseg
      simp only [Except.ok.injEq, Prod.mk.injEq] at h
      obtain ⟨rfl, rfl⟩ := h
      simp
    · next hseg =>
      have := List.length_pos.mpr hseg
      exact absurd hle (by
        simp only [not_le]
        calc 0 < segment.length * (ctsS + 1) := by positivity
          _ ≤ _ := Nat.le_add_right _ _)
  | succ n ih =>
    intro ctsS ctsE lastBpd segment file file' groups hle h
    rw [writeSegmentLoop] at h
    split at h
    · next hseg =>
      subst hseg
      simp only [Except.ok.injEq, Prod.mk.injEq] at h
      obtain ⟨rfl, rfl⟩ := h
      simp
    · next hseg =>
      have hlen : 0 < segment.length := List.length_pos.mpr hseg
      split at h
      · next hretry =>
        split at h
        · next hgrow =>
          -- retry pass: the estimate grew strictly, measure decreases
          have h1 : 1 < min (max 1 (ctsS / lastBpd)) segment.length := hretry.1
          have hmax : 1 < max 1 (ctsS / lastBpd) := lt_of_lt_of_le h1 (min_le_left _ _)
          have h2 : 2 ≤ ctsS / lastBpd := by
            rcases Nat.le_total (ctsS / lastBpd) 1 with hx | hx
            · rw [Nat.max_eq_left hx] at hmax; omega
            · rw [Nat.max_eq_right hx] at hmax; omega
          have hpos : 0 < lastBpd := by
            rcases Nat.eq_zero_or_pos lastBpd with hx | hx
            · rw [hx] at h2; simp at h2
            · exact hx
          have h3 : 2 * lastBpd ≤ ctsS := (Nat.le_div_iff_mul_le hpos).mp h2
          exact ih ctsS ctsE _ segment file file' groups (by omega) h
        · exact absurd h (by simp)
      · next hretry =>
        cases hrec : writeSegmentLoop ctsS ctsE (curBpdOf ctsS lastBpd segment)
            (segment.drop (chunkDocs ctsS lastBpd segment.length))
            (file ++ chunkBytes (segment.take (chunkDocs ctsS lastBpd segment.length))) with
        | error e =>
          simp only [hrec] at h
          exact absurd h (by simp)
        | ok p =>
          obtain ⟨f2, gs⟩ := p
          simp only [hrec, Except.ok.injEq, Prod.mk.injEq] at h
          obtain ⟨rfl, rfl⟩ := h
          have hk1 : 0 < chunkDocs ctsS lastBpd segment.length := chunkDocs_pos hlen
          have hk2 : chunkDocs ctsS lastBpd segment.length ≤ segment.length := chunkDocs_le
          have hmeas : (segment.drop (chunkDocs ctsS lastBpd segment.length)).length *
              (ctsS + 1) + (ctsS - curBpdOf ctsS lastBpd segment) ≤ n := by
            simp only [List.length_drop]
            have hstep : (segment.length - chunkDocs ctsS lastBpd segment.length) *
                (ctsS + 1) + (ctsS + 1) ≤ segment.length * (ctsS + 1) := by
              have : segment.length - chunkDocs ctsS lastBpd segment.length + 1 ≤
                  segment.length := by omega
              calc (segment.length - chunkDocs ctsS lastBpd segment.length) * (ctsS + 1)
                  + (ctsS + 1)
                  = (segment.length - chunkDocs ctsS lastBpd segment.length + 1) *
                    (ctsS + 1) := by ring
                _ ≤ segment.length * (ctsS + 1) :=
                    Nat.mul_le_mul_right _ this
            omega
          obtain ⟨hfile, hflat, hne, hbound⟩ := ih ctsS ctsE _ _ _ f2 gs hmeas hrec
          refine ⟨?_, ?_, ?_, ?_⟩
          · rw [hfile]
            simp [List.append_assoc]
          · simp only [List.flatten_cons, hflat]
            exact List.take_append_drop _ segment
          · intro g hg
            rcases List.mem_cons.mp hg with rfl | hg2
            · intro hcontra
              have : (segment.take (chunkDocs ctsS lastBpd segment.length)).length = 0 := by
                rw [hcontra]; rfl
              simp only [List.length_take] at this
              omega
            · exact hne g hg2
          · intro g hg hglen
            rcases List.mem_cons.mp hg with rfl | hg2
            · -- the accepted chunk: the retry guard failed, so a multi-doc
              -- chunk is within the bound
              have hlen2 : (segment.take (chunkDocs ctsS lastBpd segment.length)).length =
                  chunkDocs ctsS lastBpd segment.length := by
                simp only [List.length_take]
                omega
              rw [hlen2] at hglen
              rcases not_and_or.mp hretry with hx | hx
              · exact absurd hglen hx
              · omega
            · exact hbound g hg2 hglen

/-! ## Reading back written chunks -/

theorem length_chunkBytes (g : List HeapDoc) :
    (chunkBytes g).length = 9 + (archive g).length := by
  simp [chunkBytes, encU32, compress]
  omega

theorem length_mul_nine_le (l : List HeapDoc) :
    l.length * 9 ≤ (l.map (fun d => 9 + d.root.length)).sum := by
  induction l with
  | nil => simp
  | cons d ds ih =>
    simp only [List.map_cons, List.sum_cons, List.length_cons]
    omega

theorem archive_count_lt {g : List HeapDoc}
    (hsize : (archive g).length < 4294967296) : g.length < 4294967296 := by
  rw [length_archive] at hsize
  have h9 := length_mul_nine_le g
  omega

theorem machine_root_lt {g : List HeapDoc} {d : HeapDoc} (hd : d ∈ g)
    (hsize : (archive g).length < 4294967296) : d.root.length < 4294967296 := by
  rw [length_archive] at hsize
  have : 9 + d.root.length ≤ (g.map (fun x => 9 + x.root.length)).sum :=
    List.single_le_sum (by intro x hx; omega) _ (List.mem_map_of_mem _ hd)
  omega

/-- Segment.new on a spill file region that starts with a chunk written
by the writer decodes exactly that chunk's documents and points the
remainder range past the chunk. -/
theorem new_on_chunk {g : List HeapDoc} (hg : g ≠ [])
    (hmach : ∀ d ∈ g, d.binding < 4294967296 ∧ d.flags < 256)
    (hsize : (archive g).length + 1 < 4294967296)
    (p q : List Nat) (e : Nat)
    (he1 : p.length + (chunkBytes g).length ≤ e)
    (he2 : e ≤ (p ++ (chunkBytes g ++ q)).length) :
    Segment.new (p ++ (chunkBytes g ++ q)) (p.length, e) =
      .ok ⟨g, (p.length + (chunkBytes g).length, e)⟩ := by
  have hcb : (chunkBytes g).length = 9 + (archive g).length := length_chunkBytes g
  have hflen : (p ++ (chunkBytes g ++ q)).length =
      p.length + ((chunkBytes g).length + q.length) := by simp
  have hdropp : (p ++ (chunkBytes g ++ q)).drop p.length = chunkBytes g ++ q :=
    List.drop_left p _
  have hcomp : (compress (archive g)).length = (archive g).length + 1 :=
    length_compress _
  -- the header reads back the two length fields
  have hheader : ((p ++ (chunkBytes g ++ q)).drop p.length).take 8 =
      encU32 ((archive g).length + 1) ++ encU32 (archive g).length := by
    rw [hdropp]
    unfold chunkBytes
    rw [hcomp]
    rfl
  have hlz4 : decU32 ((((p ++ (chunkBytes g ++ q)).drop p.length).take 8).take 4) =
      (archive g).length + 1 := by
    rw [hheader, List.take_append_of_le_length (by simp [encU32]),
      List.take_of_length_le (by simp [encU32])]
    exact decU32_encU32_of_lt (by omega)
  have hraw : decU32 ((((p ++ (chunkBytes g ++ q)).drop p.length).take 8).drop 4) =
      (archive g).length := by
    rw [hheader, List.drop_append_of_le_length (by simp [encU32]),
      List.drop_of_length_le (by simp [encU32])]
    simp only [List.nil_append]
    exact decU32_encU32_of_lt (by omega)
  -- the compressed payload reads back whole
  have hdrop8 : (p ++ (chunkBytes g ++ q)).drop (p.length + 8) =
      compress (archive g) ++ q := by
    rw [List.drop_append 8]
    rfl
  have hpay : ((p ++ (chunkBytes g ++ q)).drop (p.length + 8)).take
      ((archive g).length + 1) = compress (archive g) := by
    rw [hdrop8, List.take_append_of_le_length (le_of_eq hcomp.symm),
      List.take_of_length_le (le_of_eq hcomp)]
  unfold Segment.new
  rw [if_neg (show ¬(p.length, e).1 = (p.length, e).2 from by simp only; omega)]
  rw [if_neg (show ¬(p ++ (chunkBytes g ++ q)).length < (p.length, e).1 + 8 from by
    simp only [hflen]; omega)]
  simp only
  rw [hlz4, hraw]
  rw [if_neg (show ¬(p.length, e).2 < (p.length, e).1 + 8 + ((archive g).length + 1) from by
    simp only; omega)]
  rw [if_neg (show ¬(p ++ (chunkBytes g ++ q)).length <
      (p.length, e).1 + 8 + ((archive g).length + 1) from by
    simp only [hflen]; omega)]
  rw [hpay, decompress_compress _ (le_refl _)]
  simp only
  rw [if_neg (by simp)]
  rw [decodeArchive_archive (fun d hd => ⟨(hmach d hd).1, (hmach d hd).2,
    machine_root_lt hd (by omega)⟩) (archive_count_lt (by omega))]
  rw [if_neg (by simpa [List.length_eq_zero] using hg)]
  simp only [Except.ok.injEq, Segment.mk.injEq, Prod.mk.injEq]
  exact ⟨trivial, by rw [hcb]; omega, trivial⟩

theorem vnext_inv_error {s : VSeg} {file : List Nat} {e : SegErr}
    (h : vnext s file = .error e) : Segment.step s.val file = .error e := by
  unfold vnext at h
  split at h
  · next hnxt => cases h; exact hnxt
  · exact absurd h (by simp)
  · exact absurd h (by simp)

theorem vnew_inv {file : List Nat} {r : Nat × Nat} {v : VSeg}
    (h : vnew file r = .ok v) : Segment.new file r = .ok v.val := by
  unfold vnew at h
  split at h
  · exact absurd h (by simp)
  · next s hnew =>
    simp only [Except.ok.injEq] at h
    subst h
    exact hnew

theorem vnew_inv_error {file : List Nat} {r : Nat × Nat} {e : SegErr}
    (h : vnew file r = .error e) : Segment.new file r = .error e := by
  unfold vnew at h
  split at h
  · next e' hnew => cases h; exact hnew
  · exact absurd h (by simp)

theorem step_error {s : Segment} {file : List Nat} {e : SegErr}
    (h : Segment.step s file = .error e) :
    s.docs.length = 1 ∧ s.next.1 < s.next.2 ∧
    Segment.new file s.next = .error e := by
  unfold Segment.step at h
  split at h
  · exact absurd h (by simp)
  · next h1 =>
    split at h
    · next h2 =>
      cases hnew : Segment.new file s.next with
      | error e2 =>
        rw [hnew] at h
        simp only [Except.map, Except.error.injEq] at h
        subst h
        exact ⟨by omega, h2, rfl⟩
      | ok t =>
        rw [hnew] at h
        exact absurd h (by simp [Except.map])
    · exact absurd h (by simp)

theorem vnext_ok_none {s : VSeg} {file : List Nat}
    (h : vnext s file = .ok none) :
    s.val.docs.length = 1 ∧ ¬(s.val.next.1 < s.val.next.2) := by
  have hinv := vnext_inv h
  simp only [Option.map] at hinv
  unfold Segment.step at hinv
  split at hinv
  · exact absurd hinv (by simp)
  · next h1 =>
    split at hinv
    · next h2 =>
      cases hnew : Segment.new file s.val.next with
      | error e2 =>
        rw [hnew] at hinv
        exact absurd hinv (by simp [Except.map])
      | ok t =>
        rw [hnew] at hinv
        exact absurd hinv (by simp [Except.map])
    · next h2 => exact ⟨by omega, h2⟩

theorem vnext_ok_some {s : VSeg} {file : List Nat} {t : VSeg}
    (h : vnext s file = .ok (some t)) :
    (s.val.docs.length ≠ 1 ∧ t.val = ⟨s.val.docs.tail, s.val.next⟩) ∨
    (s.val.docs.length = 1 ∧ s.val.next.1 < s.val.next.2 ∧
      Segment.new file s.val.next = .ok t.val) := by
  have hinv := vnext_inv h
  simp only [Option.map] at hinv
  exact Segment.next_cases s.prop hinv

theorem docs_eq_head_of_len_one {s : Segment} (h : s.docs.length = 1) :
    s.docs = [s.head] := by
  cases hd : s.docs with
  | nil => rw [hd] at h; simp at h
  | cons d ds =>
    rw [hd] at h
    simp only [List.length_cons] at h
    have : ds = [] := List.length_eq_zero.mp (by omega)
    subst this
    unfold Segment.head
    rw [hd]
    rfl

theorem docs_cons_head {s : Segment} (h : s.docs ≠ []) :
    s.docs = s.head :: s.docs.tail := by
  cases hd : s.docs with
  | nil => exact absurd hd h
  | cons d ds => unfold Segment.head; rw [hd]; rfl

/-- collectSeg reads the current chunk's documents and then behaves as a
fresh readSegment over the remaining range. -/
theorem collectSeg_docs (file : List Nat) : ∀ (n : Nat) (s : VSeg), s.val.mu ≤ n →
    collectSeg file s =
      (if s.val.next.1 < s.val.next.2 then
        (readSegment file s.val.next).map (fun l => s.val.docs ++ l)
      else .ok s.val.docs) := by
  intro n
  induction n with
  | zero =>
    intro s hle
    have := vseg_mu_pos s
    exact absurd hle (by omega)
  | succ n ih =>
    intro s hle
    rw [collectSeg]
    split
    · next e hnxt =>
      obtain ⟨h1, h2, hnew⟩ := step_error (vnext_inv_error hnxt)
      rw [if_pos h2]
      cases hv : vnew file s.val.next with
      | error e2 =>
        have := vnew_inv_error hv
        rw [hnew] at this
        cases this
        simp only [readSegment, hv, Except.map]
      | ok v =>
        have := vnew_inv hv
        rw [hnew] at this
        exact absurd this (by simp)
    · next hnxt =>
      obtain ⟨h1, h2⟩ := vnext_ok_none hnxt
      rw [if_neg h2]
      rw [docs_eq_head_of_len_one h1]
    · next t hnxt =>
      have hmu := vnext_mu hnxt
      have hrec := ih t (by omega)
      rcases vnext_ok_some hnxt with ⟨h1, h2⟩ | ⟨h1, h2, hnew⟩
      · -- still inside the decoded chunk: the tail cursor has the same
        -- remaining range
        rw [hrec, h2]
        simp only
        by_cases hc : s.val.next.1 < s.val.next.2
        · rw [if_pos hc, if_pos hc]
          cases hread : readSegment file s.val.next with
          | error e => simp only [hread, Except.map]
          | ok l =>
            simp only [hread, Except.map]
            rw [docs_cons_head s.prop]
            rfl
        · rw [if_neg hc, if_neg hc]
          rw [docs_cons_head s.prop]
          rfl
      · -- a fresh chunk was decoded from the remaining range
        rw [if_pos h2]
        cases hv : vnew file s.val.next with
        | error e2 =>
          have := vnew_inv_error hv
          rw [hnew] at this
          exact absurd this (by simp)
        | ok v =>
          have hvv := vnew_inv hv
          rw [hnew] at hvv
          simp only [Except.ok.injEq] at hvv
          have hveq : v = t := Subtype.ext (by rw [hvv])
          simp only [readSegment, hv, hveq]
          cases hcol : collectSeg file t with
          | error e => simp only [hcol, Except.map]
          | ok l =>
            simp only [hcol, Except.map]
            rw [docs_eq_head_of_len_one h1]
            rfl

theorem length_flatMap_chunkBytes (gs : List (List HeapDoc)) :
    (gs.flatMap chunkBytes).length = (gs.map (fun g => (chunkBytes g).length)).sum := by
  induction gs with
  | nil => rfl
  | cons g gs ih => simp [List.flatMap_cons, ih]

theorem flatMap_chunkBytes_pos {gs : List (List HeapDoc)} (h : gs ≠ []) :
    0 < (gs.flatMap chunkBytes).length := by
  cases gs with
  | nil => exact absurd rfl h
  | cons g gs =>
    simp only [List.flatMap_cons, List.length_append, length_chunkBytes]
    omega

/-- readSegment over a region that is a concatenation of written chunks
yields exactly the concatenation of the chunks' documents, regardless of
what sits before or after the region in the file. -/
theorem readSegment_chunks : ∀ (gs : List (List HeapDoc)) (p q : List Nat),
    gs ≠ [] → (∀ g ∈ gs, g ≠ []) →
    (∀ g ∈ gs, ∀ d ∈ g, d.binding < 4294967296 ∧ d.flags < 256) →
    (∀ g ∈ gs, (archive g).length + 1 < 4294967296) →
    readSegment (p ++ (gs.flatMap chunkBytes ++ q))
        (p.length, p.length + (gs.flatMap chunkBytes).length) = .ok gs.flatten := by
  intro gs
  induction gs with
  | nil => intro p q h; exact absurd rfl h
  | cons g gs ih =>
    intro p q _ hne hmach hsize
    have hgne : g ≠ [] := hne g (by simp)
    have hgsize : (archive g).length + 1 < 4294967296 := hsize g (by simp)
    have hgmach : ∀ d ∈ g, d.binding < 4294967296 ∧ d.flags < 256 := hmach g (by simp)
    have hfm : (g :: gs).flatMap chunkBytes = chunkBytes g ++ gs.flatMap chunkBytes :=
      List.flatMap_cons ..
    have hassoc : p ++ ((g :: gs).flatMap chunkBytes ++ q) =
        p ++ (chunkBytes g ++ (gs.flatMap chunkBytes ++ q)) := by
      rw [hfm, List.append_assoc]
    have hE : p.length + ((g :: gs).flatMap chunkBytes).length =
        p.length + ((chunkBytes g).length + (gs.flatMap chunkBytes).length) := by
      rw [hfm]; simp
    rw [hassoc, hE]
    have hnew := new_on_chunk hgne hgmach hgsize p (gs.flatMap chunkBytes ++ q)
      (p.length + ((chunkBytes g).length + (gs.flatMap chunkBytes).length))
      (by omega) (by simp)
    unfold readSegment
    cases hv : vnew (p ++ (chunkBytes g ++ (gs.flatMap chunkBytes ++ q)))
        (p.length, p.length + ((chunkBytes g).length + (gs.flatMap chunkBytes).length)) with
    | error e =>
      have := vnew_inv_error hv
      rw [hnew] at this
      exact absurd this (by simp)
    | ok v =>
      have hvv := vnew_inv hv
      rw [hnew] at hvv
      simp only [Except.ok.injEq] at hvv
      simp only
      have hcol := collectSeg_docs (p ++ (chunkBytes g ++ (gs.flatMap chunkBytes ++ q)))
        v.val.mu v (le_refl _)
      rw [hcol, ← hvv]
      simp only
      by_cases hgs : gs = []
      · subst hgs
        rw [if_neg (by simp)]
        simp
      · rw [if_pos (by
          have := flatMap_chunkBytes_pos hgs
          omega)]
        -- the tail region is the chunk list gs placed after prefix p ++ chunkBytes g
        have hp2 : (p ++ chunkBytes g).length = p.length + (chunkBytes g).length := by
          simp
        have htail := ih (p ++ chunkBytes g) q hgs
          (fun x hx => hne x (by simp [hx]))
          (fun x hx => hmach x (by simp [hx]))
          (fun x hx => hsize x (by simp [hx]))
        rw [hp2] at htail
        rw [List.append_assoc] at htail
        have harith : p.length + (chunkBytes g).length + (gs.flatMap chunkBytes).length =
            p.length + ((chunkBytes g).length + (gs.flatMap chunkBytes).length) := by omega
        rw [harith] at htail
        rw [htail]
        simp [Except.map]

theorem sum_le_of_mem {gs : List (List HeapDoc)} {g : List HeapDoc}
    (hg : g ∈ gs) (f : HeapDoc → Nat) :
    (g.map f).sum ≤ ((gs.flatten).map f).sum := by
  induction gs with
  | nil => exact absurd hg (by simp)
  | cons g2 gs2 ih =>
    simp only [List.flatten_cons, List.map_append, List.sum_append]
    rcases List.mem_cons.mp hg with rfl | h2
    · omega
    · have := ih h2
      omega

theorem archive_le_of_mem_flatten {gs : List (List HeapDoc)} {g : List HeapDoc}
    (hg : g ∈ gs) : (archive g).length ≤ (archive gs.flatten).length := by
  rw [length_archive, length_archive]
  have := sum_le_of_mem hg (fun d => 9 + d.root.length)
  omega

/-- write_segment followed by reading the recorded range back through
Segment.new / next recovers the original documents, provided the run
completed without the retry-assertion panic and the segment's archived
size fits the chunk headers' u32 fields. -/
theorem write_segment_readback {w : SpillWriter} {seg : List HeapDoc}
    {cts : Nat × Nat} {w' : SpillWriter} {n : Nat}
    (hne : seg ≠ [])
    (hmach : ∀ d ∈ seg, d.binding < 4294967296 ∧ d.flags < 256)
    (hsize : (archive seg).length + 1 < 4294967296)
    (h : SpillWriter.write_segment w seg cts = .ok (w', n)) :
    w'.ranges = w.ranges ++ [(w.spill.length, w'.spill.length)] ∧
    n = w'.spill.length - w.spill.length ∧
    readSegment w'.spill (w.spill.length, w'.spill.length) = .ok seg := by
  unfold SpillWriter.write_segment at h
  cases hsg : seg with
  | nil => exact absurd hsg hne
  | cons d rest =>
    rw [hsg] at h
    simp only at h
    cases hloop : writeSegmentLoop cts.1 cts.2 (rootArchive d.root).length
        (d :: rest) w.spill with
    | error e =>
      rw [hloop] at h
      exact absurd h (by simp)
    | ok p =>
      obtain ⟨file2, groups⟩ := p
      rw [hloop] at h
      simp only [Except.ok.injEq, Prod.mk.injEq] at h
      obtain ⟨hw', hn⟩ := h
      subst hw'
      subst hn
      obtain ⟨hfile, hflat, hgne, _⟩ :=
        writeLoop_spec ((d :: rest).length * (cts.1 + 1) + (cts.1 - (rootArchive d.root).length))
          cts.1 cts.2 (rootArchive d.root).length (d :: rest) w.spill file2 groups
          (le_refl _) hloop

      have hgroups_ne : groups ≠ [] := by
        intro hcg
        rw [hcg] at hflat
        exact hne (hsg.trans hflat.symm)
      have hgmach : ∀ g ∈ groups, ∀ x ∈ g, x.binding < 4294967296 ∧ x.flags < 256 := by
        intro g hg x hx
        apply hmach
        rw [hsg, ← hflat]
        exact List.mem_flatten.mpr ⟨g, hg, hx⟩
      have hgsize : ∀ g ∈ groups, (archive g).length + 1 < 4294967296 := by
        intro g hg
        have := archive_le_of_mem_flatten hg
        rw [hflat, ← hsg] at this
        omega
      have hread := readSegment_chunks groups w.spill [] hgroups_ne hgne hgmach hgsize
      simp only [List.append_nil] at hread
      refine ⟨by simp only [hfile], rfl, ?_⟩
      simp only [hfile]
      have hlen2 : (w.spill ++ groups.flatMap chunkBytes).length =
          w.spill.length + (groups.flatMap chunkBytes).length := by simp
      rw [hlen2, hread, hflat]

/-! ## Fixtures used by witnesses and counterexamples -/

/-- fixFive is a sorted five-document segment with one-byte roots
0,1,2,3,4 (strictly ascending under any extractor that reads the first
root byte). -/
def fixFive : List HeapDoc :=
  [⟨0, 0, [0]⟩, ⟨0, 0, [1]⟩, ⟨0, 0, [2]⟩, ⟨0, 0, [3]⟩, ⟨0, 0, [4]⟩]

/-- fixMix is a sorted segment whose second document is far larger than
the chunk_target_size upper bound used with it. -/
def fixMix : List HeapDoc :=
  [⟨0, 0, [1]⟩, ⟨0, 0, List.replicate 22 7⟩, ⟨0, 0, [2]⟩, ⟨0, 0, [3]⟩]

/-- fixOneChunk is the on-file encoding of a one-document chunk. -/
def fixOneChunk : List Nat := chunkBytes [⟨0, 0, []⟩]

/-! ## Claim C9 -/

/-- Claim C9: a Segment is never empty - every Segment that Segment::new
returns holds at least one decoded document (the source asserts this),
every Segment that Segment::next returns (modelled by Segment.step)
preserves that invariant, and under the invariant head() returns the
first document without any out-of-bounds access (modelled: Segment.head,
a totalized docs[0], coincides with the proof-carrying List.head). -/
theorem claim_C9_segment_never_empty :
    (∀ (file : List Nat) (r : Nat × Nat) (s : Segment),
      Segment.new file r = .ok s → s.docs ≠ []) ∧
    (∀ (file : List Nat) (s t : Segment), s.docs ≠ [] →
      Segment.step s file = .ok (some t) → t.docs ≠ []) ∧
    (∀ (s : Segment) (h : s.docs ≠ []), Segment.head s = s.docs.head h) := by
  refine ⟨fun file r s h => Segment.new_nonempty h,
    fun file s t hne h => Segment.next_nonempty hne h,
    fun s h => ?_⟩
  show s.docs.headI = s.docs.head h
  revert h
  cases s.docs with
  | nil => intro h; exact absurd rfl h
  | cons d ds => intro h; rfl

/-- Witness for C9 at concrete inputs: a freshly decoded one-document
chunk is non-empty; stepping a two-document segment keeps it non-empty;
head of a concrete segment is its first document. -/
theorem claim_C9_witness :
    ((⟨[⟨0, 0, []⟩], (22, 22)⟩ : Segment).docs ≠ []) ∧
    ((⟨[⟨0, 0, [1]⟩], (5, 5)⟩ : Segment).docs ≠ []) ∧
    Segment.head ⟨[⟨0, 0, [2]⟩], (0, 0)⟩ = ⟨0, 0, [2]⟩ := by
  refine ⟨claim_C9_segment_never_empty.1 fixOneChunk (0, 22) _ (by decide),
    claim_C9_segment_never_empty.2.1 [] ⟨[⟨0, 0, [0]⟩, ⟨0, 0, [1]⟩], (5, 5)⟩ _
      (by decide) (by decide), ?_⟩
  have h := claim_C9_segment_never_empty.2.2 ⟨[⟨0, 0, [2]⟩], (0, 0)⟩ (by decide)
  rw [h]
  rfl

/-! ## Claim C7 -/

/-- Claim C7, corrected: Segment::new detects every corruption but does
not return a CorruptChunk error value for all of them - two of the three
conditions are assert! panics in the source, and a decompression failure
propagates as an io error (which drain_while wraps as Error::SpillIO, not
CorruptChunk).  Precisely: when the implied next-chunk offset
(range.start + 8 + compressed_length) exceeds range.end the function
panics; when decompression fails it returns an io error; when the
decompressed count disagrees with the header raw_length it panics. -/
theorem claim_C7_corruption_detected (file : List Nat) (r : Nat × Nat)
    (hne : r.1 ≠ r.2) (hhdr : r.1 + 8 ≤ file.length) :
    (r.2 < r.1 + 8 + hdrLz4 file r.1 →
      Segment.new file r = .error .assertFail) ∧
    (r.1 + 8 + hdrLz4 file r.1 ≤ r.2 →
      r.1 + 8 + hdrLz4 file r.1 ≤ file.length →
      decompress ((file.drop (r.1 + 8)).take (hdrLz4 file r.1)) (hdrRaw file r.1) =
        none →
      Segment.new file r = .error .ioErr) ∧
    (∀ cnt data, r.1 + 8 + hdrLz4 file r.1 ≤ r.2 →
      r.1 + 8 + hdrLz4 file r.1 ≤ file.length →
      decompress ((file.drop (r.1 + 8)).take (hdrLz4 file r.1)) (hdrRaw file r.1) =
        some (cnt, data) →
      cnt ≠ hdrRaw file r.1 →
      Segment.new file r = .error .assertFail) := by
  simp only [hdrLz4, hdrRaw] at *
  refine ⟨?_, ?_, ?_⟩
  · intro hover
    simp only [Segment.new]
    rw [if_neg hne, if_neg (by omega), if_pos hover]
  · intro hb1 hb2 hdec
    simp only [Segment.new]
    rw [if_neg hne, if_neg (by omega), if_neg (by omega), if_neg (by omega)]
    simp only [hdec]
  · intro cnt data hb1 hb2 hdec hcnt
    simp only [Segment.new]
    rw [if_neg hne, if_neg (by omega), if_neg (by omega), if_neg (by omega)]
    simp only [hdec]
    rw [if_pos hcnt]

/-- Witness for C7 at three concrete corrupt inputs: a chunk whose
compressed length overruns its range (panic), a chunk whose payload does
not decompress (io error), and a chunk whose decompressed count differs
from the header (panic). -/
theorem claim_C7_witness :
    Segment.new (fixOneChunk.take 21) (0, 21) = .error .assertFail ∧
    Segment.new [2, 0, 0, 0, 5, 0, 0, 0, 9, 7] (0, 10) = .error .ioErr ∧
    Segment.new [2, 0, 0, 0, 5, 0, 0, 0, 1, 7] (0, 10) = .error .assertFail := by
  refine ⟨(claim_C7_corruption_detected (fixOneChunk.take 21) (0, 21)
      (by decide) (by decide)).1 (by decide),
    (claim_C7_corruption_detected [2, 0, 0, 0, 5, 0, 0, 0, 9, 7] (0, 10)
      (by decide) (by decide)).2.1 (by decide) (by decide) (by decide),
    (claim_C7_corruption_detected [2, 0, 0, 0, 5, 0, 0, 0, 1, 7] (0, 10)
      (by decide) (by decide)).2.2 1 [7] (by decide) (by decide) (by decide)
      (by decide)⟩

/-- Counterexample to C7 as stated: truncating a written chunk's payload
by one byte before decode makes Segment::new fail through the range
assert - a panic - not through a CorruptChunk error value, so the claim
that decoding fails with a CorruptChunk error rather than panicking is
false on the code. -/
theorem claim_C7_counterexample :
    Segment.new (fixOneChunk.take 21) (0, 21) = .error .assertFail := by
  decide

/-! ## Claim C4 -/

/-- Claim C4: every chunk the chunking loop of write_segment accepts and
writes that contains more than one document has archived
(pre-compression) size at most chunk_target_size.end, while
single-document chunks are always accepted and written - no document is
ever dropped, so the accepted chunks flatten back to the input segment
even when a lone document exceeds the bound. -/
theorem claim_C4_chunk_bound {ctsS ctsE lastBpd : Nat} {segment : List HeapDoc}
    {file file' : List Nat} {groups : List (List HeapDoc)}
    (h : writeSegmentLoop ctsS ctsE lastBpd segment file = .ok (file', groups)) :
    (∀ g ∈ groups, 1 < g.length → (archive g).length ≤ ctsE) ∧
    (∀ g ∈ groups, g ≠ []) ∧
    groups.flatten = segment ∧
    file' = file ++ groups.flatMap chunkBytes := by
  obtain ⟨h1, h2, h3, h4⟩ := writeLoop_spec
    (segment.length * (ctsS + 1) + (ctsS - lastBpd)) ctsS ctsE lastBpd segment
    file file' groups (le_refl _) h
  exact ⟨h4, h3, h2, h1⟩

/-- fixMixGroups is the chunking the loop produces for fixMix at
chunk_target_size (20, 30): four singleton chunks, the second oversized. -/
def fixMixGroups : List (List HeapDoc) :=
  [[⟨0, 0, [1]⟩], [⟨0, 0, List.replicate 22 7⟩], [⟨0, 0, [2]⟩], [⟨0, 0, [3]⟩]]

/-- Witness for C4 at a concrete input: chunking fixMix at targets
(20, 30) drops no document - the groups flatten back to the segment even
though the second document alone archives to more than 30 bytes. -/
theorem claim_C4_witness :
    30 < (archive [(⟨0, 0, List.replicate 22 7⟩ : HeapDoc)]).length ∧
    fixMixGroups.flatten = fixMix := by
  have h : writeSegmentLoop 20 30 5 fixMix [] =
      .ok (fixMixGroups.flatMap chunkBytes, fixMixGroups) := by
    simp [writeSegmentLoop, fixMix, fixMixGroups, chunkDocs, curBpdOf, archive,
      encDoc, encU32, chunkBytes, compress]
  exact ⟨by decide, (claim_C4_chunk_bound h).2.2.1⟩

/-! ## Claim C10 -/

/-- Claim C10 is a code bug: the spec (following the source comment)
says the chunking retry loop always terminates because the assertion
cur_bpd > last_bpd guarantees progress, but only cur_bpd >= last_bpd is
actually guaranteed, and the equal case makes the assert! itself panic on
a well-formed input.  Concretely: five one-byte-root documents at
chunk_target_size (50, 53) seed bytes-per-doc 5; the first 5-doc chunk
archives to 54 > 53, retrying with cur_bpd = 54/5 = 10 > 5; the retried
5-doc chunk again archives to 54 > 53, and now cur_bpd = 10 = last_bpd,
so the assertion fails.  The loop does terminate in the model (it is a
total function), but via the panic path the spec says cannot happen. -/
theorem claim_C10_retry_assert_panics :
    SpillWriter.write_segment emptyWriter fixFive (50, 53) =
      .error .assertFail := by
  simp [SpillWriter.write_segment, writeSegmentLoop, fixFive, chunkDocs,
    curBpdOf, archive, encDoc, encU32, rootArchive, chunkBytes, compress,
    emptyWriter]

/-! ## Claim C1 -/

/-- Claim C1, corrected: when write_segment succeeds it appends exactly
one range covering the newly written bytes, returns the number of bytes
written, and reading that range back through Segment yields the original
segment - but the claim's unconditional phrasing fails, because
write_segment does not always succeed (claim_C1_counterexample): the
retry assertion can panic on well-formed input, and the corrected
statement also needs the documents within u32/u8 machine ranges and the
archived segment below 2^32 bytes, since the chunk header stores both
lengths as u32 and wraps beyond that. -/
theorem claim_C1_write_read_roundtrip {w w' : SpillWriter} {n : Nat}
    {segment : List HeapDoc} {cts : Nat × Nat}
    (hne : segment ≠ []) (hm : ∀ d ∈ segment, MachineDoc d)
    (hsize : (archive segment).length + 1 < 2 ^ 32)
    (h : SpillWriter.write_segment w segment cts = .ok (w', n)) :
    w'.ranges = w.ranges ++ [(w.spill.length, w'.spill.length)] ∧
    n = w'.spill.length - w.spill.length ∧
    readSegment w'.spill (w.spill.length, w'.spill.length) = .ok segment :=
  write_segment_readback hne (fun d hd => ⟨(hm d hd).1, (hm d hd).2.1⟩) hsize h

/-- Witness for C1 at a concrete input: writing fixFive at
chunk_target_size (100, 200) produces one 63-byte chunk, and reading it
back returns fixFive. -/
theorem claim_C1_witness :
    readSegment (chunkBytes fixFive) (0, 63) = .ok fixFive := by
  have h : SpillWriter.write_segment emptyWriter fixFive (100, 200) =
      .ok (⟨[(0, 63)], chunkBytes fixFive⟩, 63) := by
    simp [SpillWriter.write_segment, writeSegmentLoop, fixFive, chunkDocs,
      curBpdOf, archive, encDoc, encU32, rootArchive, chunkBytes, compress,
      emptyWriter]
  exact (claim_C1_write_read_roundtrip (by decide) (by decide) (by decide) h).2.2

/-- Counterexample to C1 as stated: the claim promises the round-trip for
every non-empty sorted segment, with no proviso about failure, yet
write_segment on fixFive at chunk_target_size (50, 53) returns no spill
file at all - it dies in the retry assertion. -/
theorem claim_C1_counterexample :
    SpillWriter.write_segment emptyWriter fixFive (50, 53) ≠
      .ok (⟨[(0, 63)], chunkBytes fixFive⟩, 63) ∧
    ∃ e, SpillWriter.write_segment emptyWriter fixFive (50, 53) = .error e := by
  have h : SpillWriter.write_segment emptyWriter fixFive (50, 53) =
      .error .assertFail := by
    simp [SpillWriter.write_segment, writeSegmentLoop, fixFive, chunkDocs,
      curBpdOf, archive, encDoc, encU32, rootArchive, chunkBytes, compress,
      emptyWriter]
  rw [h]
  exact ⟨by simp, .assertFail, rfl⟩

/-! ## Drain-side helper lemmas -/

/-- drainStep reports end-of-stream only on an empty heap. -/
theorem drainStep_none {spec : Spec} {smash : Smash} {file : List Nat}
    {heap : List VSeg} (h : drainStep spec smash file heap = .ok none) :
    heap = [] := by
  unfold drainStep at h
  split at h
  · next hpop => exact popMin_none_iff.mp hpop
  · next cur rest hpop =>
    split at h
    · split at h
      · exact absurd h (by simp)
      · split at h
        · exact absurd h (by simp)
        · split at h
          · exact absurd h (by simp)
          · exact absurd h (by simp)
          · exact absurd h (by simp)
    · exact absurd h (by simp)

/-- One unfolding of drain_while under the always-pause callback. -/
theorem drain_while_false_step {spec : Spec} {smash : Smash} {file : List Nat}
    (heap : List VSeg) :
    drain_while spec smash file (fun _ _ _ => false) heap =
      match drainStep spec smash file heap with
      | .error e => .error e
      | .ok none => .ok ([], false, heap)
      | .ok (some (d, heap')) => .ok ([d], true, heap') := by
  rw [drain_while]
  split
  · next e hstep => rw [hstep]
  · next hstep => rw [hstep]
  · next d heap' hstep =>
    rw [hstep]
    have hc : ¬((fun (_ : Nat) (_ : Node) (_ : Bool) => false)
        d.binding d.root d.reduced = true) := by simp
    rw [if_neg hc]

/-- One unfolding of drain_while under the never-pause callback. -/
theorem drain_while_true_step {spec : Spec} {smash : Smash} {file : List Nat}
    (heap : List VSeg) :
    drainAll spec smash file heap =
      match drainStep spec smash file heap with
      | .error e => .error e
      | .ok none => .ok ([], false, heap)
      | .ok (some (d, heap')) =>
        Except.map (fun r => (d :: r.1, r.2.1, r.2.2))
          (drainAll spec smash file heap') := by
  unfold drainAll
  rw [drain_while]
  split
  · next e hstep => rw [hstep]
  · next hstep => rw [hstep]
  · next d heap' hstep =>
    rw [hstep]
    have hc : (fun (_ : Nat) (_ : Node) (_ : Bool) => true)
        d.binding d.root d.reduced = true := rfl
    rw [if_pos hc]
    cases hres : drain_while spec smash file (fun _ _ _ => true) heap' with
    | error e => simp [drainAll, hres, Except.map]
    | ok r =>
      obtain ⟨tr, b, h2⟩ := r
      simp [drainAll, hres, Except.map]

/-- drain_while reports false exactly when the callback accepted every
delivered document, and in that case the heap it hands back is empty. -/
theorem drain_while_return_aux {spec : Spec} {smash : Smash} {file : List Nat}
    {sink : Nat → Node → Bool → Bool} :
    ∀ (n : Nat) (heap : List VSeg) (tr : List Delivery) (b : Bool) (h' : List VSeg),
      heapMu heap ≤ n →
      drain_while spec smash file sink heap = .ok (tr, b, h') →
      ((b = false ↔ ∀ d ∈ tr, sink d.binding d.root d.reduced = true) ∧
        (b = false → h' = [])) := by
  intro n
  induction n with
  | zero =>
    intro heap tr b h' hle h
    rw [drain_while] at h
    split at h
    · exact absurd h (by simp)
    · next hstep =>
      simp only [Except.ok.injEq, Prod.mk.injEq] at h
      obtain ⟨rfl, rfl, rfl⟩ := h
      exact ⟨by simp, fun _ => drainStep_none hstep⟩
    · next d heap' hstep =>
      have := drainStep_heapMu hstep
      exact absurd hle (by omega)
  | succ n ih =>
    intro heap tr b h' hle h
    rw [drain_while] at h
    split at h
    · exact absurd h (by simp)
    · next hstep =>
      simp only [Except.ok.injEq, Prod.mk.injEq] at h
      obtain ⟨rfl, rfl, rfl⟩ := h
      exact ⟨by simp, fun _ => drainStep_none hstep⟩
    · next d heap' hstep =>
      have hmu := drainStep_heapMu hstep
      split at h
      · next hsink =>
        split at h
        · exact absurd h (by simp)
        · next tr' b' h'' hrec =>
          simp only [Except.ok.injEq, Prod.mk.injEq] at h
          obtain ⟨rfl, rfl, rfl⟩ := h
          obtain ⟨ih1, ih2⟩ := ih heap' tr' b' h'' (by omega) hrec
          refine ⟨?_, ih2⟩
          rw [List.forall_mem_cons]
          exact ⟨fun hb => ⟨hsink, ih1.mp hb⟩, fun hall => ih1.mpr hall.2⟩
      · next hsink =>
        simp only [Except.ok.injEq, Prod.mk.injEq] at h
        obtain ⟨rfl, rfl, rfl⟩ := h
        constructor
        · simp [hsink]
        · intro hb
          simp at hb

/-- drainRepeat agrees with the uninterrupted drain, bounded form. -/
theorem drainRepeat_eq_aux {spec : Spec} {smash : Smash} {file : List Nat} :
    ∀ (n : Nat) (heap : List VSeg), heapMu heap ≤ n →
      drainRepeat spec smash file heap =
        Except.map (fun r => r.1) (drainAll spec smash file heap) := by
  intro n
  induction n with
  | zero =>
    intro heap hle
    rw [drainRepeat]
    split
    · next e hw =>
      rw [drain_while_false_step] at hw
      rw [drain_while_true_step]
      cases hstep : drainStep spec smash file heap with
      | error e2 =>
        simp only [hstep, Except.error.injEq] at hw
        simp only [hstep, Except.map]
        rw [hw]
      | ok o =>
        cases o with
        | none =>
          simp only [hstep] at hw
          exact absurd hw (by simp)
        | some p =>
          obtain ⟨d, heap'⟩ := p
          simp only [hstep] at hw
          exact absurd hw (by simp)
    · next tr b h' hw =>
      rw [drain_while_false_step] at hw
      rw [drain_while_true_step]
      cases hstep : drainStep spec smash file heap with
      | error e2 =>
        simp only [hstep] at hw
        exact absurd hw (by simp)
      | ok o =>
        cases o with
        | none =>
          simp only [hstep, Except.ok.injEq, Prod.mk.injEq] at hw
          obtain ⟨rfl, rfl, rfl⟩ := hw
          simp only [hstep, Except.map]
        | some p =>
          obtain ⟨d, heap'⟩ := p
          have := drainStep_heapMu hstep
          exact absurd hle (by omega)
  | succ n ih =>
    intro heap hle
    rw [drainRepeat]
    split
    · next e hw =>
      rw [drain_while_false_step] at hw
      rw [drain_while_true_step]
      cases hstep : drainStep spec smash file heap with
      | error e2 =>
        simp only [hstep, Except.error.injEq] at hw
        simp only [hstep, Except.map]
        rw [hw]
      | ok o =>
        cases o with
        | none =>
          simp only [hstep] at hw
          exact absurd hw (by simp)
        | some p =>
          obtain ⟨d, heap'⟩ := p
          simp only [hstep] at hw
          exact absurd hw (by simp)
    · next tr b h' hw =>
      rw [drain_while_false_step] at hw
      rw [drain_while_true_step]
      cases hstep : drainStep spec smash file heap with
      | error e2 =>
        simp only [hstep] at hw
        exact absurd hw (by simp)
      | ok o =>
        cases o with
        | none =>
          simp only [hstep, Except.ok.injEq, Prod.mk.injEq] at hw
          obtain ⟨rfl, rfl, rfl⟩ := hw
          simp only [hstep, Except.map]
        | some p =>
          obtain ⟨d, heap'⟩ := p
          have hmu := drainStep_heapMu hstep
          simp only [hstep, Except.ok.injEq, Prod.mk.injEq] at hw
          obtain ⟨rfl, rfl, rfl⟩ := hw
          simp only [hstep, Except.map]
          rw [ih heap' (by omega)]
          cases hda : drainAll spec smash file heap' with
          | error e => simp [hda, Except.map]
          | ok r =>
            obtain ⟨tr2, b2, h2⟩ := r
            simp [hda, Except.map]

/-- mergeGroup's must_validate output is set exactly when it was set on
entry or a reduction was applied, and the reduction count never
decreases; bounded form. -/
theorem mergeGroup_mustV_aux {spec : Spec} {smash : Smash} {file : List Nat} :
    ∀ (n : Nat) (binding : Nat) (doc : Node) (flags : Nat) (mustV : Bool) (nR : Nat)
      (heap : List VSeg) (res : Node × Nat × Bool × Nat × List VSeg),
      heapMu heap ≤ n →
      mergeGroup spec smash file binding doc flags mustV nR heap = .ok res →
      ((res.2.2.1 = true ↔ mustV = true ∨ nR < res.2.2.2.1) ∧ nR ≤ res.2.2.2.1) := by
  intro n
  induction n with
  | zero =>
    intro binding doc flags mustV nR heap res hle h
    rw [mergeGroup] at h
    split at h
    · cases h; exact ⟨by simp, le_refl _⟩
    · next peek rest hpop =>
      have h1 := popMin_heapMu hpop
      have h2 := vseg_mu_pos peek
      exact absurd hle (by omega)
  | succ n ih =>
    intro binding doc flags mustV nR heap res hle h
    rw [mergeGroup] at h
    split at h
    · cases h; exact ⟨by simp, le_refl _⟩
    · next peek rest hpop =>
      have h1 := popMin_heapMu hpop
      have h2 := vseg_mu_pos peek
      split at h
      · split at h
        · exact absurd h (by simp)
        · split at h
          · exact absurd h (by simp)
          · next hnxt =>
            obtain ⟨ih1, ih2⟩ := ih _ _ _ _ _ rest res (by omega) h
            refine ⟨⟨fun _ => Or.inr (by omega), fun _ => ih1.mpr (Or.inl rfl)⟩,
              by omega⟩
          · next peek' hnxt =>
            have h3 := vnext_mu hnxt
            have h4 : heapMu (peek' :: rest) = peek'.val.mu + heapMu rest := by
              simp [heapMu]
            obtain ⟨ih1, ih2⟩ := ih _ _ _ _ _ (peek' :: rest) res (by omega) h
            refine ⟨⟨fun _ => Or.inr (by omega), fun _ => ih1.mpr (Or.inl rfl)⟩,
              by omega⟩
      · cases h; exact ⟨by simp, le_refl _⟩

/-! ## Claim C5 -/

/-- Claim C5: pause/resume equivalence - repeatedly calling drain_while
with a callback that pauses after every delivered document, resuming on
the heap state each call hands back, produces exactly the delivery
sequence of a single drain_while call whose callback never pauses (and
the same error, if the drain fails); no document is lost or duplicated
across the pauses. -/
theorem claim_C5_pause_resume (spec : Spec) (smash : Smash) (file : List Nat)
    (heap : List VSeg) :
    drainRepeat spec smash file heap =
      Except.map (fun r => r.1) (drainAll spec smash file heap) :=
  drainRepeat_eq_aux (heapMu heap) heap (le_refl _)

/-! ## Claim C6 -/

/-- Claim C6, corrected: a successful drain_while call returns false
exactly when the callback accepted every document delivered during the
call, and a false return does mean the heap is exhausted - but the claim
as stated is false in the other direction: a true return does not mean
documents remain, because when the callback pauses on the very last
document drain_while returns true with an already-empty heap
(claim_C6_counterexample). -/
theorem claim_C6_drain_while_return {spec : Spec} {smash : Smash}
    {file : List Nat} {sink : Nat → Node → Bool → Bool} {heap : List VSeg}
    {tr : List Delivery} {b : Bool} {h' : List VSeg}
    (h : drain_while spec smash file sink heap = .ok (tr, b, h')) :
    (b = false ↔ ∀ d ∈ tr, sink d.binding d.root d.reduced = true) ∧
    (b = false → h' = []) :=
  drain_while_return_aux (heapMu heap) heap tr b h' (le_refl _) h

/-! ## Claim C8 -/

/-- Claim C8: within one drain_while key-group the accumulated document
is re-validated (the source's must_validate flag, recorded as
didValidate) if and only if at least one reduction was applied to it
during the merge (recorded as nReduce); a document emitted without any
reduction reaches the callback without re-validation. -/
theorem claim_C8_validate_iff_reduce {spec : Spec} {smash : Smash}
    {file : List Nat} {heap : List VSeg} {d : Delivery} {heap' : List VSeg}
    (h : drainStep spec smash file heap = .ok (some (d, heap'))) :
    (d.didValidate = true ↔ 0 < d.nReduce) := by
  unfold drainStep at h
  split at h
  · exact absurd h (by simp)
  · next cur rest hpop =>
    by_cases hb : cur.val.head.binding < spec.validators.length
    · rw [dif_pos hb] at h
      cases hmg : mergeGroup spec smash file cur.val.head.binding cur.val.head.root
          cur.val.head.flags false 0 rest with
      | error e =>
        simp only [hmg] at h
        exact absurd h (by simp)
      | ok res =>
        obtain ⟨doc, flags, mustV, nR, heap''⟩ := res
        simp only [hmg] at h
        obtain ⟨hm1, -⟩ := mergeGroup_mustV_aux (heapMu rest) _ _ _ _ _ rest _
          (le_refl _) hmg
        simp only at hm1
        by_cases hv : mustV = true ∧
            (spec.validators.get ⟨cur.val.head.binding, hb⟩) doc = false
        · rw [if_pos hv] at h
          exact absurd h (by simp)
        · rw [if_neg hv] at h
          cases hnxt : vnext cur file with
          | error e =>
            simp only [hnxt] at h
            exact absurd h (by simp)
          | ok o =>
            simp only [hnxt] at h
            cases o with
            | none =>
              simp only [Except.ok.injEq, Option.some.injEq, Prod.mk.injEq] at h
              obtain ⟨rfl, -⟩ := h
              rw [hm1]
              simp
            | some cur' =>
              simp only [Except.ok.injEq, Option.some.injEq, Prod.mk.injEq] at h
              obtain ⟨rfl, -⟩ := h
              rw [hm1]
              simp
    · rw [dif_neg hb] at h
      exact absurd h (by simp)

/-! ## Concrete drain fixtures -/

/-- fixSpec is a one-binding Spec: no key extractors (every pair of
documents ties on the key) and a validator that accepts everything. -/
def fixSpec : Spec := ⟨[[]], [fun _ => true]⟩

/-- fixSmash is a reduction that keeps the left accumulator. -/
def fixSmash : Smash := fun _ d f _ _ => .ok (d, f)

/-- fixVSeg is a one-document segment whose file region is exhausted. -/
def fixVSeg : VSeg := ⟨⟨[⟨0, 0, []⟩], (22, 22)⟩, by decide⟩

/-- fixVSegA and fixVSegB hold one document each with identical keys;
fixVSegA was written earlier (start offset 5 < 7). -/
def fixVSegA : VSeg := ⟨⟨[⟨0, 0, [1]⟩], (5, 5)⟩, by decide⟩

def fixVSegB : VSeg := ⟨⟨[⟨0, 0, [1]⟩], (7, 7)⟩, by decide⟩

/-- fixDelivery is the delivery draining [fixVSeg] produces. -/
def fixDelivery : Delivery := ⟨0, [], false, false, 0⟩

/-- fixDeliveryR is the delivery draining [fixVSegA, fixVSegB] produces:
one reduction, hence re-validated. -/
def fixDeliveryR : Delivery := ⟨0, [1], false, true, 1⟩

/-- mergeGroup on an empty heap returns its accumulator unchanged. -/
theorem mergeGroup_nil (spec : Spec) (smash : Smash) (file : List Nat)
    (b : Nat) (d : Node) (f : Nat) (m : Bool) (r : Nat) :
    mergeGroup spec smash file b d f m r [] = .ok (d, f, m, r, []) := by
  rw [mergeGroup]
  rfl

/-- Evaluation: draining one step of the singleton heap [fixVSeg]. -/
theorem drainStep_single :
    drainStep fixSpec fixSmash [] [fixVSeg] = .ok (some (fixDelivery, [])) := by
  have hmg : mergeGroup fixSpec fixSmash [] (fixVSeg.val.head.binding)
      (fixVSeg.val.head.root) (fixVSeg.val.head.flags) false 0 [] =
      .ok (fixVSeg.val.head.root, fixVSeg.val.head.flags, false, 0, []) :=
    mergeGroup_nil fixSpec fixSmash [] _ _ _ false 0
  unfold drainStep
  split
  · next heq => exact absurd heq (by decide)
  · next cur rest heq =>
    have h2 : popMin fixSpec.keys [fixVSeg] = some (fixVSeg, []) := by decide
    rw [h2] at heq
    simp only [Option.some.injEq, Prod.mk.injEq] at heq
    obtain ⟨rfl, rfl⟩ := heq
    rw [dif_pos (show fixVSeg.val.head.binding < fixSpec.validators.length by
      decide)]
    rw [hmg]
    rfl

/-- Evaluation: merging the tied fixVSegB into the accumulator popped
from fixVSegA applies one reduction and sets must_validate. -/
theorem mergeGroup_pair :
    mergeGroup fixSpec fixSmash [] (fixVSegA.val.head.binding)
      (fixVSegA.val.head.root) (fixVSegA.val.head.flags) false 0 [fixVSegB] =
      .ok ([1], 0, true, 1, []) := by
  rw [mergeGroup]
  split
  · next heq => exact absurd heq (by decide)
  · next peek rest heq =>
    have h2 : popMin fixSpec.keys [fixVSegB] = some (fixVSegB, []) := by decide
    rw [h2] at heq
    simp only [Option.some.injEq, Prod.mk.injEq] at heq
    obtain ⟨rfl, rfl⟩ := heq
    exact mergeGroup_nil fixSpec fixSmash [] 0 [1] 0 true (0 + 1)

/-- Evaluation: draining one step of the tied two-segment heap. -/
theorem drainStep_pair :
    drainStep fixSpec fixSmash [] [fixVSegA, fixVSegB] =
      .ok (some (fixDeliveryR, [])) := by
  unfold drainStep
  split
  · next heq => exact absurd heq (by decide)
  · next cur rest heq =>
    have h2 : popMin fixSpec.keys [fixVSegA, fixVSegB] =
        some (fixVSegA, [fixVSegB]) := by decide
    rw [h2] at heq
    simp only [Option.some.injEq, Prod.mk.injEq] at heq
    obtain ⟨rfl, rfl⟩ := heq
    rw [dif_pos (show fixVSegA.val.head.binding < fixSpec.validators.length by
      decide)]
    rw [mergeGroup_pair]
    rfl

/-- Witness for C8 at a concrete input: draining the two tied segments
applies one reduction, and the delivery is re-validated; the claim
theorem applied at this drainStep run gives exactly that equivalence. -/
theorem claim_C8_witness :
    fixDeliveryR.didValidate = true ↔ 0 < fixDeliveryR.nReduce :=
  claim_C8_validate_iff_reduce drainStep_pair

/-- Witness for C6 at a concrete input: draining the singleton heap with
a callback that never pauses returns false, and indeed every delivered
document was accepted and the final heap is empty. -/
theorem claim_C6_witness :
    ((false = false) ↔ ∀ d ∈ [fixDelivery],
      (fun (_ : Nat) (_ : Node) (_ : Bool) => true) d.binding d.root d.reduced
        = true) ∧
    ((false = false) → ([] : List VSeg) = []) := by
  have h : drain_while fixSpec fixSmash [] (fun _ _ _ => true) [fixVSeg] =
      .ok ([fixDelivery], false, []) := by
    rw [show drain_while fixSpec fixSmash [] (fun _ _ _ => true) [fixVSeg] =
      drainAll fixSpec fixSmash [] [fixVSeg] from rfl]
    rw [drain_while_true_step]
    simp only [drainStep_single]
    rw [drain_while_true_step]
    simp only [show drainStep fixSpec fixSmash [] [] = .ok none from rfl]
    rfl
  exact claim_C6_drain_while_return h

/-- Counterexample to C6 as stated: the claim says drain_while never
returns true when no documents remain, but pausing on the last document
of the singleton heap returns true with an already-empty heap - the next
call would deliver nothing. -/
theorem claim_C6_counterexample :
    drain_while fixSpec fixSmash [] (fun _ _ _ => false) [fixVSeg] =
      .ok ([fixDelivery], true, []) := by
  rw [drain_while_false_step]
  simp only [drainStep_single]

/-! ## Claim C2: merge ordering

The ordering invariant: a live segment is well-formed when reading it to
exhaustion succeeds and yields documents in strictly ascending
(binding, key) order - exactly the order SpillWriter was handed (sorted,
one document per key). -/

/-- dBK is the (binding, key) a delivery carries under the shared
extractor table. -/
def dBK (spec : Spec) (d : Delivery) : Nat × List Nat :=
  (d.binding, projKey (spec.keys.getD d.binding []) d.root)

/-- SegWF: the segment's remaining stream reads back successfully and is
strictly ascending in (binding, key). -/
def SegWF (keys : List (List Extractor)) (file : List Nat) (s : VSeg) : Prop :=
  ∃ l, collectSeg file s = .ok l ∧ (l.map (docBK keys)).Pairwise ltBK

theorem ltBK_ne_gt {x y : Nat × List Nat} (h : ltBK x y) : cmpBK x y ≠ .gt := by
  unfold ltBK at h
  rw [h]
  simp

/-- A tie of the merge guard pins the peeked head's (binding, key) to the
accumulator's. -/
theorem guard_eq_docBK {keys : List (List Extractor)} {binding : Nat} {doc : Node}
    {d : HeapDoc} (h1 : binding = d.binding)
    (h2 : compare_key (keys.getD binding []) doc d.root = .eq) :
    (binding, projKey (keys.getD binding []) doc) = docBK keys d := by
  subst h1
  rw [compare_key_eq_cmpList, cmpList_eq_iff] at h2
  unfold docBK
  rw [h2]

/-- A successful read of a segment starts with its head document. -/
theorem collectSeg_shape {file : List Nat} {s : VSeg} {l : List HeapDoc}
    (h : collectSeg file s = .ok l) :
    ∃ l', l = s.val.head :: l' := by
  rw [collectSeg] at h
  split at h
  · exact absurd h (by simp)
  · simp only [Except.ok.injEq] at h
    exact ⟨[], h.symm⟩
  · next t heq =>
    split at h
    · exact absurd h (by simp)
    · next l2 heq2 =>
      simp only [Except.ok.injEq] at h
      exact ⟨l2, h.symm⟩

/-- Reading a segment that advances to t reads t's stream after the
head. -/
theorem collectSeg_step {file : List Nat} {s t : VSeg} {l : List HeapDoc}
    (hv : vnext s file = .ok (some t))
    (h : collectSeg file s = .ok l) :
    ∃ l', l = s.val.head :: l' ∧ collectSeg file t = .ok l' := by
  rw [collectSeg] at h
  split at h
  · next heq =>
    rw [hv] at heq
    exact absurd heq (by simp)
  · next heq =>
    rw [hv] at heq
    exact absurd heq (by simp)
  · next t2 heq =>
    rw [hv] at heq
    simp only [Except.ok.injEq, Option.some.injEq] at heq
    subst heq
    split at h
    · exact absurd h (by simp)
    · next l2 heq2 =>
      simp only [Except.ok.injEq] at h
      exact ⟨l2, h.symm, heq2⟩

/-- Advancing a well-formed segment keeps it well-formed and strictly
increases the head's (binding, key). -/
theorem SegWF_step {keys : List (List Extractor)} {file : List Nat}
    {s t : VSeg} (hw : SegWF keys file s)
    (hv : vnext s file = .ok (some t)) :
    SegWF keys file t ∧
      ltBK (docBK keys s.val.head) (docBK keys t.val.head) := by
  obtain ⟨l, hcol, hpw⟩ := hw
  obtain ⟨l', rfl, hcol'⟩ := collectSeg_step hv hcol
  obtain ⟨l'', rfl⟩ := collectSeg_shape hcol'
  simp only [List.map_cons, List.pairwise_cons] at hpw
  obtain ⟨hhead, hpw'⟩ := hpw
  refine ⟨⟨_, hcol', ?_⟩, ?_⟩
  · simpa using hpw'
  · exact hhead _ (by simp)

/-- A successful read of a segment whose step is exhausted is exactly
its head. -/
theorem collectSeg_last {file : List Nat} {s : VSeg} {l : List HeapDoc}
    (hv : vnext s file = .ok none)
    (h : collectSeg file s = .ok l) : l = [s.val.head] := by
  rw [collectSeg] at h
  split at h
  · next heq =>
    rw [hv] at heq
    exact absurd heq (by simp)
  · simp only [Except.ok.injEq] at h
    exact h.symm
  · next t2 heq =>
    rw [hv] at heq
    exact absurd heq (by simp)

/-- smashFold is the left fold of the reduction over a document list:
the accumulator is always the left argument, exactly the order
drain_while applies smash while popping a tied key group. -/
def smashFold (smash : Smash) (binding : Nat) :
    Node × Nat → List HeapDoc → Except DrainErr (Node × Nat)
  | acc, [] => .ok acc
  | acc, d :: ds =>
    match smash binding acc.1 acc.2 d.root d.flags with
    | .error e => .error e
    | .ok acc' => smashFold smash binding acc' ds

/-- streamsOf reads every heap segment to exhaustion and concatenates
the streams: the multiset of documents the drain still has to account
for. -/
def streamsOf (file : List Nat) : List VSeg → Except SegErr (List HeapDoc)
  | [] => .ok []
  | s :: rest =>
    match collectSeg file s with
    | .error e => .error e
    | .ok l => (streamsOf file rest).map (fun L => l ++ L)

/-- GroupOf says the delivery d accounts for exactly the documents g:
they all carry d's (binding, key), and d's root is the left-to-right
smash fold over them starting from the first. -/
def GroupOf (spec : Spec) (smash : Smash) (d : Delivery) (g : List HeapDoc) : Prop :=
  (∀ x ∈ g, docBK spec.keys x = dBK spec d) ∧
  ∃ x xs fl, g = x :: xs ∧
    smashFold smash d.binding (x.root, x.flags) xs = .ok (d.root, fl)

theorem streamsOf_cons_inv {file : List Nat} {s : VSeg} {rest : List VSeg}
    {L : List HeapDoc} (h : streamsOf file (s :: rest) = .ok L) :
    ∃ l L', collectSeg file s = .ok l ∧ streamsOf file rest = .ok L' ∧
      L = l ++ L' := by
  simp only [streamsOf] at h
  split at h
  · exact absurd h (by simp)
  · next l heq =>
    cases hrest : streamsOf file rest with
    | error e =>
      rw [hrest] at h
      simp only [Except.map] at h
      exact absurd h (by simp)
    | ok L' =>
      rw [hrest] at h
      simp only [Except.map, Except.ok.injEq] at h
      exact ⟨l, L', heq, rfl, h.symm⟩

/-- streamsOf only cares about the heap as a multiset. -/
theorem streamsOf_perm {file : List Nat} {h1 h2 : List VSeg}
    (hp : h1.Perm h2) :
    ∀ {L : List HeapDoc}, streamsOf file h1 = .ok L →
      ∃ L2, streamsOf file h2 = .ok L2 ∧ L.Perm L2 := by
  induction hp with
  | nil =>
    intro L h
    simp only [streamsOf, Except.ok.injEq] at h
    subst h
    exact ⟨[], rfl, List.Perm.refl _⟩
  | cons x hp' ih =>
    intro L h
    obtain ⟨l, L', hcol, hrest, rfl⟩ := streamsOf_cons_inv h
    obtain ⟨L2', hrest2, hperm⟩ := ih hrest
    refine ⟨l ++ L2', ?_, (List.Perm.refl l).append hperm⟩
    simp only [streamsOf, hcol, hrest2, Except.map]
  | swap x y rest =>
    intro L h
    obtain ⟨ly, L1, hcoly, h1, rfl⟩ := streamsOf_cons_inv h
    obtain ⟨lx, L2, hcolx, h2, rfl⟩ := streamsOf_cons_inv h1
    refine ⟨lx ++ (ly ++ L2), ?_, ?_⟩
    · simp only [streamsOf, hcolx, hcoly, h2, Except.map]
    · rw [← List.append_assoc, ← List.append_assoc]
      exact List.perm_append_comm.append_right L2
  | trans hp1 hp2 ih1 ih2 =>
    intro L h
    obtain ⟨L2, h2, p2⟩ := ih1 h
    obtain ⟨L3, h3, p3⟩ := ih2 h2
    exact ⟨L3, h3, p2.trans p3⟩

/-- mergeGroup ordering and accounting: when every heap segment is
well-formed and no head sits below the accumulator's (binding, key),
and the reduction preserves the accumulator's key, the merged document
keeps the accumulator's key, every surviving head ends strictly above
it, and the consumed documents - all carrying the accumulator's
(binding, key) - are folded left-to-right into the result, the rest of
the streams surviving untouched; bounded form. -/
theorem mergeGroup_sorted_aux {spec : Spec} {smash : Smash} {file : List Nat}
    (hsm : ∀ b a fa c fc r fr, smash b a fa c fc = .ok (r, fr) →
      projKey (spec.keys.getD b []) r = projKey (spec.keys.getD b []) a) :
    ∀ (n : Nat) (binding : Nat) (doc : Node) (flags : Nat) (mustV : Bool) (nR : Nat)
      (heap : List VSeg) (res : Node × Nat × Bool × Nat × List VSeg)
      (L : List HeapDoc),
      heapMu heap ≤ n →
      (∀ s ∈ heap, SegWF spec.keys file s) →
      (∀ s ∈ heap, cmpBK (binding, projKey (spec.keys.getD binding []) doc)
        (docBK spec.keys s.val.head) ≠ .gt) →
      streamsOf file heap = .ok L →
      mergeGroup spec smash file binding doc flags mustV nR heap = .ok res →
      projKey (spec.keys.getD binding []) res.1 =
          projKey (spec.keys.getD binding []) doc ∧
      (∀ s ∈ res.2.2.2.2, SegWF spec.keys file s) ∧
      (∀ s ∈ res.2.2.2.2, ltBK (binding, projKey (spec.keys.getD binding []) doc)
        (docBK spec.keys s.val.head)) ∧
      (∃ consumed L', streamsOf file res.2.2.2.2 = .ok L' ∧
        L.Perm (consumed ++ L') ∧
        smashFold smash binding (doc, flags) consumed = .ok (res.1, res.2.1) ∧
        ∀ x ∈ consumed, docBK spec.keys x =
          (binding, projKey (spec.keys.getD binding []) doc)) := by
  intro n
  induction n with
  | zero =>
    intro binding doc flags mustV nR heap res L hle hwf hdom hstr h
    rw [mergeGroup] at h
    split at h
    · next hpop =>
      cases h
      have he : heap = [] := popMin_none_iff.mp hpop
      subst he
      simp only [streamsOf, Except.ok.injEq] at hstr
      subst hstr
      exact ⟨rfl, hwf, fun s hs => absurd hs (by simp),
        [], [], rfl, List.Perm.refl _, rfl, fun x hx => absurd hx (by simp)⟩
    · next peek rest hpop =>
      have h1 := popMin_heapMu hpop
      have h2 := vseg_mu_pos peek
      exact absurd hle (by omega)
  | succ n ih =>
    intro binding doc flags mustV nR heap res L hle hwf hdom hstr h
    rw [mergeGroup] at h
    split at h
    · next hpop =>
      cases h
      have he : heap = [] := popMin_none_iff.mp hpop
      subst he
      simp only [streamsOf, Except.ok.injEq] at hstr
      subst hstr
      exact ⟨rfl, hwf, fun s hs => absurd hs (by simp),
        [], [], rfl, List.Perm.refl _, rfl, fun x hx => absurd hx (by simp)⟩
    · next peek rest hpop =>
      have h1 := popMin_heapMu hpop
      have h2 := vseg_mu_pos peek
      have hpeek : peek ∈ heap :=
        (popMin_perm hpop).mem_iff.mpr (List.mem_cons_self _ _)
      have hmem : ∀ s ∈ rest, s ∈ heap := fun s hs =>
        (popMin_perm hpop).mem_iff.mpr (List.mem_cons_of_mem _ hs)
      obtain ⟨Lc, hstrc, hpermL⟩ := streamsOf_perm (popMin_perm hpop) hstr
      obtain ⟨lp, Lr, hcolp, hstrr, rfl⟩ := streamsOf_cons_inv hstrc
      split at h
      · next hguard =>
        have hacc : (binding, projKey (spec.keys.getD binding []) doc) =
            docBK spec.keys peek.val.head :=
          guard_eq_docBK hguard.1 hguard.2
        split at h
        · exact absurd h (by simp)
        · next doc' flags' hsmash =>
          have hkey := hsm _ _ _ _ _ _ _ hsmash
          split at h
          · exact absurd h (by simp)
          · next hnxt =>
            have hlp : lp = [peek.val.head] := collectSeg_last hnxt hcolp
            subst hlp
            have hwf' : ∀ s ∈ rest, SegWF spec.keys file s :=
              fun s hs => hwf s (hmem s hs)
            have hdom' : ∀ s ∈ rest,
                cmpBK (binding, projKey (spec.keys.getD binding []) doc')
                  (docBK spec.keys s.val.head) ≠ .gt := by
              intro s hs
              rw [hkey]
              exact hdom s (hmem s hs)
            obtain ⟨ih1, ih2, ih3, consumed1, L', hstr', hperm', hfold', hkeys'⟩ :=
              ih binding doc' flags' true (nR + 1) rest res Lr (by omega)
                hwf' hdom' hstrr h
            rw [hkey] at ih1 ih3 hkeys'
            refine ⟨ih1, ih2, ih3, peek.val.head :: consumed1, L', hstr', ?_, ?_, ?_⟩
            · exact hpermL.trans (List.Perm.cons _ hperm')
            · simp only [smashFold, hsmash]
              exact hfold'
            · intro x hx
              rcases List.mem_cons.mp hx with rfl | hx'
              · exact hacc.symm
              · exact hkeys' x hx'
          · next peek' hnxt =>
            obtain ⟨lp', rfl, hcolp'⟩ := collectSeg_step hnxt hcolp
            obtain ⟨hwfp', hlt⟩ := SegWF_step (hwf peek hpeek) hnxt
            have h3 := vnext_mu hnxt
            have h4 : heapMu (peek' :: rest) = peek'.val.mu + heapMu rest := by
              simp [heapMu]
            have hwf' : ∀ s ∈ peek' :: rest, SegWF spec.keys file s := by
              intro s hs
              rcases List.mem_cons.mp hs with rfl | hs'
              · exact hwfp'
              · exact hwf s (hmem s hs')
            have hdom' : ∀ s ∈ peek' :: rest,
                cmpBK (binding, projKey (spec.keys.getD binding []) doc')
                  (docBK spec.keys s.val.head) ≠ .gt := by
              intro s hs
              rw [hkey]
              rcases List.mem_cons.mp hs with rfl | hs'
              · rw [hacc]
                exact ltBK_ne_gt hlt
              · exact hdom s (hmem s hs')
            have hstr2 : streamsOf file (peek' :: rest) = .ok (lp' ++ Lr) := by
              simp only [streamsOf, hcolp', hstrr, Except.map]
            obtain ⟨ih1, ih2, ih3, consumed1, L', hstr', hperm', hfold', hkeys'⟩ :=
              ih binding doc' flags' true (nR + 1) (peek' :: rest) res (lp' ++ Lr)
                (by omega) hwf' hdom' hstr2 h
            rw [hkey] at ih1 ih3 hkeys'
            refine ⟨ih1, ih2, ih3, peek.val.head :: consumed1, L', hstr', ?_, ?_, ?_⟩
            · exact hpermL.trans (List.Perm.cons _ hperm')
            · simp only [smashFold, hsmash]
              exact hfold'
            · intro x hx
              rcases List.mem_cons.mp hx with rfl | hx'
              · exact hacc.symm
              · exact hkeys' x hx'
      · next hguard =>
        cases h
        have hltp : ltBK (binding, projKey (spec.keys.getD binding []) doc)
            (docBK spec.keys peek.val.head) := by
          refine ltBK_of_le_of_ne (hdom peek hpeek) ?_
          intro heqacc
          apply hguard
          unfold docBK at heqacc
          rw [Prod.mk.injEq] at heqacc
          obtain ⟨hb', hk'⟩ := heqacc
          refine ⟨hb', ?_⟩
          rw [compare_key_eq_cmpList, cmpList_eq_iff, hb']
          rw [hb'] at hk'
          exact hk'
        refine ⟨rfl, hwf, ?_, [], L, hstr, List.Perm.refl _, rfl,
          fun x hx => absurd hx (by simp)⟩
        intro s hs
        rcases List.mem_cons.mp ((popMin_perm hpop).mem_iff.mp hs) with rfl | hs'
        · exact hltp
        · exact ltBK_le_trans hltp (cmpSeg_le_BK (popMin_min hpop s hs'))

/-- drainStep ordering and accounting: on a well-formed heap, a
delivered document carries the (binding, key) of the popped minimum
head, every head of the returned heap sits strictly above it, and the
input streams split - up to permutation - into the group the delivery
folds over and the streams that survive. -/
theorem drainStep_sorted {spec : Spec} {smash : Smash} {file : List Nat}
    {heap : List VSeg} {d : Delivery} {heap' : List VSeg} {L : List HeapDoc}
    (hsm : ∀ b a fa c fc r fr, smash b a fa c fc = .ok (r, fr) →
      projKey (spec.keys.getD b []) r = projKey (spec.keys.getD b []) a)
    (hwf : ∀ s ∈ heap, SegWF spec.keys file s)
    (hstr : streamsOf file heap = .ok L)
    (h : drainStep spec smash file heap = .ok (some (d, heap'))) :
    (∀ s ∈ heap', SegWF spec.keys file s) ∧
    (∀ s ∈ heap', ltBK (dBK spec d) (docBK spec.keys s.val.head)) ∧
    (∃ cur ∈ heap, dBK spec d = docBK spec.keys cur.val.head) ∧
    (∃ g L', streamsOf file heap' = .ok L' ∧ L.Perm (g ++ L') ∧
      GroupOf spec smash d g) := by
  unfold drainStep at h
  split at h
  · exact absurd h (by simp)
  · next cur rest hpop =>
    have hcurm : cur ∈ heap :=
      (popMin_perm hpop).mem_iff.mpr (List.mem_cons_self _ _)
    have hmem : ∀ s ∈ rest, s ∈ heap := fun s hs =>
      (popMin_perm hpop).mem_iff.mpr (List.mem_cons_of_mem _ hs)
    obtain ⟨Lc, hstrc, hpermL⟩ := streamsOf_perm (popMin_perm hpop) hstr
    obtain ⟨lc, Lr, hcolc, hstrr, rfl⟩ := streamsOf_cons_inv hstrc
    by_cases hb : cur.val.head.binding < spec.validators.length
    · rw [dif_pos hb] at h
      cases hmg : mergeGroup spec smash file cur.val.head.binding cur.val.head.root
          cur.val.head.flags false 0 rest with
      | error e =>
        simp only [hmg] at h
        exact absurd h (by simp)
      | ok res =>
        obtain ⟨doc, flags, mustV, nR, heap''⟩ := res
        simp only [hmg] at h
        have hdom0 : ∀ s ∈ rest,
            cmpBK (cur.val.head.binding,
              projKey (spec.keys.getD cur.val.head.binding []) cur.val.head.root)
              (docBK spec.keys s.val.head) ≠ .gt := by
          intro s hs
          exact cmpSeg_le_BK (popMin_min hpop s hs)
        obtain ⟨hkey, hwf'', hdom'', consumed, L1, hstrh, hpermr, hfold, hkeysc⟩ :=
          mergeGroup_sorted_aux hsm (heapMu rest)
            _ _ _ _ _ rest _ Lr (le_refl _) (fun s hs => hwf s (hmem s hs))
            hdom0 hstrr hmg
        have hkey2 : projKey (spec.keys.getD cur.val.head.binding []) doc =
            projKey (spec.keys.getD cur.val.head.binding []) cur.val.head.root :=
          hkey
        have hwf2 : ∀ s ∈ heap'', SegWF spec.keys file s := hwf''
        have hdom2 : ∀ s ∈ heap'',
            ltBK (cur.val.head.binding,
              projKey (spec.keys.getD cur.val.head.binding []) cur.val.head.root)
              (docBK spec.keys s.val.head) := hdom''
        have hstrh2 : streamsOf file heap'' = .ok L1 := hstrh
        have hfold2 : smashFold smash cur.val.head.binding
            (cur.val.head.root, cur.val.head.flags) consumed = .ok (doc, flags) :=
          hfold
        have hkeysc2 : ∀ x ∈ consumed, docBK spec.keys x =
            (cur.val.head.binding,
              projKey (spec.keys.getD cur.val.head.binding []) cur.val.head.root) :=
          hkeysc
        by_cases hv : mustV = true ∧
            (spec.validators.get ⟨cur.val.head.binding, hb⟩) doc = false
        · rw [if_pos hv] at h
          exact absurd h (by simp)
        · rw [if_neg hv] at h
          cases hnxt : vnext cur file with
          | error e =>
            simp only [hnxt] at h
            exact absurd h (by simp)
          | ok o =>
            simp only [hnxt] at h
            cases o with
            | none =>
              simp only [Except.ok.injEq, Option.some.injEq, Prod.mk.injEq] at h
              obtain ⟨rfl, rfl⟩ := h
              have hlc : lc = [cur.val.head] := collectSeg_last hnxt hcolc
              subst hlc
              have hdbk : dBK spec ⟨cur.val.head.binding, doc,
                  (flags &&& FLAG_REDUCED) != 0, mustV, nR⟩ =
                  docBK spec.keys cur.val.head := by
                show (cur.val.head.binding,
                  projKey (spec.keys.getD cur.val.head.binding []) doc) =
                  docBK spec.keys cur.val.head
                rw [hkey2]
                rfl
              refine ⟨hwf2, ?_, ⟨cur, hcurm, hdbk⟩,
                cur.val.head :: consumed, L1, hstrh2,
                hpermL.trans (List.Perm.cons _ hpermr), ?_, ?_⟩
              · intro s hs
                rw [hdbk]
                exact hdom2 s hs
              · intro x hx
                rcases List.mem_cons.mp hx with rfl | hx'
                · exact hdbk.symm
                · exact (hkeysc2 x hx').trans hdbk.symm
              · exact ⟨cur.val.head, consumed, flags, rfl, hfold2⟩
            | some cur' =>
              simp only [Except.ok.injEq, Option.some.injEq, Prod.mk.injEq] at h
              obtain ⟨rfl, rfl⟩ := h
              obtain ⟨lc', rfl, hcolc'⟩ := collectSeg_step hnxt hcolc
              obtain ⟨hwfc', hltc⟩ := SegWF_step (hwf cur hcurm) hnxt
              have hdbk : dBK spec ⟨cur.val.head.binding, doc,
                  (flags &&& FLAG_REDUCED) != 0, mustV, nR⟩ =
                  docBK spec.keys cur.val.head := by
                show (cur.val.head.binding,
                  projKey (spec.keys.getD cur.val.head.binding []) doc) =
                  docBK spec.keys cur.val.head
                rw [hkey2]
                rfl
              have hstrh3 : streamsOf file (cur' :: heap'') = .ok (lc' ++ L1) := by
                simp only [streamsOf, hcolc', hstrh2, Except.map]
              have hpermfull : ((cur.val.head :: lc') ++ Lr).Perm
                  ((cur.val.head :: consumed) ++ (lc' ++ L1)) := by
                refine List.Perm.cons _ ?_
                have a1 : (lc' ++ Lr).Perm (lc' ++ (consumed ++ L1)) :=
                  (List.Perm.refl lc').append hpermr
                have a2 : (lc' ++ (consumed ++ L1)).Perm (consumed ++ (lc' ++ L1)) := by
                  rw [← List.append_assoc, ← List.append_assoc]
                  exact List.perm_append_comm.append_right L1
                exact a1.trans a2
              refine ⟨?_, ?_, ⟨cur, hcurm, hdbk⟩,
                cur.val.head :: consumed, lc' ++ L1, hstrh3,
                hpermL.trans hpermfull, ?_, ?_⟩
              · intro s hs
                rcases List.mem_cons.mp hs with rfl | hs'
                · exact hwfc'
                · exact hwf2 s hs'
              · intro s hs
                rw [hdbk]
                rcases List.mem_cons.mp hs with rfl | hs'
                · exact hltc
                · exact hdom2 s hs'
              · intro x hx
                rcases List.mem_cons.mp hx with rfl | hx'
                · exact hdbk.symm
                · exact (hkeysc2 x hx').trans hdbk.symm
              · exact ⟨cur.val.head, consumed, flags, rfl, hfold2⟩
    · rw [dif_neg hb] at h
      exact absurd h (by simp)

/-- drainAll ordering and accounting, bounded form: on a well-formed
heap, the trace is strictly ascending in (binding, key), every delivery
dominates some initial head, and the input streams permute into the
per-delivery groups plus the streams still held by the final heap. -/
theorem drainAll_sorted_aux {spec : Spec} {smash : Smash} {file : List Nat}
    (hsm : ∀ b a fa c fc r fr, smash b a fa c fc = .ok (r, fr) →
      projKey (spec.keys.getD b []) r = projKey (spec.keys.getD b []) a) :
    ∀ (n : Nat) (heap : List VSeg), heapMu heap ≤ n →
      (∀ s ∈ heap, SegWF spec.keys file s) →
      ∀ (L : List HeapDoc), streamsOf file heap = .ok L →
      ∀ (tr : List Delivery) (b : Bool) (h' : List VSeg),
        drainAll spec smash file heap = .ok (tr, b, h') →
        ((tr.map (dBK spec)).Pairwise ltBK ∧
          (∀ d ∈ tr, ∃ cur ∈ heap,
            cmpBK (docBK spec.keys cur.val.head) (dBK spec d) ≠ .gt) ∧
          (∃ gs L', streamsOf file h' = .ok L' ∧ L.Perm (gs.flatten ++ L') ∧
            List.Forall₂ (GroupOf spec smash) tr gs)) := by
  intro n
  induction n with
  | zero =>
    intro heap hle hwf L hstr tr b h' h
    unfold drainAll at h
    rw [drain_while] at h
    split at h
    · exact absurd h (by simp)
    · next hstep =>
      simp only [Except.ok.injEq, Prod.mk.injEq] at h
      obtain ⟨rfl, rfl, rfl⟩ := h
      exact ⟨by simp, by simp, [], L, hstr, List.Perm.refl _, List.Forall₂.nil⟩
    · next d heap' hstep =>
      have := drainStep_heapMu hstep
      exact absurd hle (by omega)
  | succ n ih =>
    intro heap hle hwf L hstr tr b h' h
    unfold drainAll at h
    rw [drain_while] at h
    split at h
    · exact absurd h (by simp)
    · next hstep =>
      simp only [Except.ok.injEq, Prod.mk.injEq] at h
      obtain ⟨rfl, rfl, rfl⟩ := h
      exact ⟨by simp, by simp, [], L, hstr, List.Perm.refl _, List.Forall₂.nil⟩
    · next d heap' hstep =>
      have hmu := drainStep_heapMu hstep
      obtain ⟨hwf', hdom', ⟨cur, hcurm, hcureq⟩, g, L1, hstr1, hpermg, hgroup⟩ :=
        drainStep_sorted hsm hwf hstr hstep
      rw [if_pos (show (fun (_ : Nat) (_ : Node) (_ : Bool) => true)
        d.binding d.root d.reduced = true from rfl)] at h
      split at h
      · exact absurd h (by simp)
      · next tr' b' h'' hrec =>
        simp only [Except.ok.injEq, Prod.mk.injEq] at h
        obtain ⟨rfl, rfl, rfl⟩ := h
        obtain ⟨ihpw, ihdom, gs', L', hstr', hperm', hforall⟩ :=
          ih heap' (by omega) hwf' L1 hstr1 tr' b' h'' hrec
        refine ⟨?_, ?_, g :: gs', L', hstr', ?_, List.Forall₂.cons hgroup hforall⟩
        · simp only [List.map_cons, List.pairwise_cons]
          refine ⟨?_, ihpw⟩
          intro x hx
          obtain ⟨d'', hd'', rfl⟩ := List.mem_map.mp hx
          obtain ⟨s', hs'm, hle'⟩ := ihdom d'' hd''
          exact ltBK_le_trans (hdom' s' hs'm) hle'
        · intro d'' hd''
          rcases List.mem_cons.mp hd'' with rfl | hd3
          · refine ⟨cur, hcurm, ?_⟩
            rw [← hcureq]
            simp [cmpBK_eq_iff.mpr rfl]
          · obtain ⟨s', hs'm, hle'⟩ := ihdom d'' hd3
            refine ⟨cur, hcurm, ?_⟩
            have hx : ltBK (dBK spec d) (dBK spec d'') :=
              ltBK_le_trans (hdom' s' hs'm) hle'
            have hy : ltBK (docBK spec.keys cur.val.head) (dBK spec d'') := by
              rw [← hcureq]
              exact hx
            exact ltBK_ne_gt hy
        · have hchain : L.Perm (g ++ (gs'.flatten ++ L')) :=
            hpermg.trans ((List.Perm.refl g).append hperm')
          simpa [List.flatten_cons, List.append_assoc] using hchain

/-- Claim C2: merge ordering - when every live segment's remaining
stream is strictly ascending in (binding, key) (which is how
write_segment lays segments out: the input slices are sorted with one
document per key) and the reduction preserves the accumulated document's
key (spec-modelled behaviour of the reduce collaborator), the documents
a drain delivers to the callback are in strictly ascending (binding,
key) order - so no two delivered documents share a (binding, key) - and
the input document streams permute exactly into one group per delivery
plus the streams the final heap still holds: every group's documents all
carry the delivery's (binding, key) and left-fold under the reduction
(accumulator left) into the delivered root, so all documents sharing a
key are reduced into the one delivery emitted before any later key, and
no tied document is lost or duplicated; on a completed drain (false
return) the final heap is empty, so the groups account for the entire
input.  By claim_C5_pause_resume the same trace is delivered across
paused and resumed drain_while calls. -/
theorem claim_C2_merge_ordering {spec : Spec} {smash : Smash} {file : List Nat}
    {heap : List VSeg} {L : List HeapDoc} {tr : List Delivery} {b : Bool}
    {h' : List VSeg}
    (hsm : ∀ bi a fa c fc r fr, smash bi a fa c fc = .ok (r, fr) →
      projKey (spec.keys.getD bi []) r = projKey (spec.keys.getD bi []) a)
    (hwf : ∀ s ∈ heap, SegWF spec.keys file s)
    (hstr : streamsOf file heap = .ok L)
    (h : drainAll spec smash file heap = .ok (tr, b, h')) :
    (tr.map (dBK spec)).Pairwise ltBK ∧
    (∃ gs L', streamsOf file h' = .ok L' ∧ L.Perm (gs.flatten ++ L') ∧
      List.Forall₂ (GroupOf spec smash) tr gs) ∧
    (b = false → h' = []) := by
  obtain ⟨hpw, -, hacc⟩ :=
    drainAll_sorted_aux hsm (heapMu heap) heap (le_refl _) hwf L hstr tr b h' h
  exact ⟨hpw, hacc,
    fun hb => (drain_while_return_aux (heapMu heap) heap tr b h' (le_refl _) h).2 hb⟩

/-! ## Claim C3: the offset tie-break and left-to-right reduction -/

/-- A one-document segment with an exhausted region steps to none. -/
theorem vnext_of_exhausted {s : VSeg} {file : List Nat}
    (h1 : s.val.docs.length = 1) (h2 : ¬ s.val.next.1 < s.val.next.2) :
    vnext s file = .ok none := by
  have hstep : Segment.step s.val file = .ok none := by
    unfold Segment.step
    rw [if_neg (not_not_intro h1), if_neg h2]
  unfold vnext
  split
  · next heq =>
    rw [hstep] at heq
    exact absurd heq (by simp)
  · rfl
  · next t heq =>
    rw [hstep] at heq
    exact absurd heq (by simp)

theorem popMin_single (keys : List (List Extractor)) (x : VSeg) :
    popMin keys [x] = some (x, []) := by
  simp [popMin]

/-- Pushing a segment no greater than the tail's minimum onto the heap
makes it the minimum. -/
theorem popMin_cons_of_le {keys : List (List Extractor)} {x m : VSeg}
    {xs r : List VSeg} (hp : popMin keys xs = some (m, r))
    (hle : cmpSeg keys x.val m.val ≠ .gt) :
    popMin keys (x :: xs) = some (x, xs) := by
  simp only [popMin, hp]
  rw [if_pos hle]

/-- Claim C3: Segment's order is lexicographic on (binding, key,
next-chunk start offset) - on (binding, key) ties the segment written
earlier into the spill file sorts first - and consequently draining
three one-document same-key segments written in order A, B, C emits
reduce(reduce(A,B),C): the accumulator is always the left argument and
association is strictly left-to-right. -/
theorem claim_C3_tie_break {spec : Spec} {smash : Smash} {file : List Nat}
    {sA sB sC : VSeg} {dA dB dC : HeapDoc} {bi : Nat}
    {rAB rABC : Node} {fAB fABC : Nat}
    (hA : sA.val.docs = [dA]) (hB : sB.val.docs = [dB]) (hC : sC.val.docs = [dC])
    (hbA : dA.binding = bi) (hbB : dB.binding = bi) (hbC : dC.binding = bi)
    (hxA : ¬ sA.val.next.1 < sA.val.next.2)
    (hxB : ¬ sB.val.next.1 < sB.val.next.2)
    (hxC : ¬ sC.val.next.1 < sC.val.next.2)
    (hoAB : sA.val.next.1 < sB.val.next.1)
    (hoBC : sB.val.next.1 < sC.val.next.1)
    (hkAB : compare_key (spec.keys.getD bi []) dA.root dB.root = .eq)
    (hkAC : compare_key (spec.keys.getD bi []) dA.root dC.root = .eq)
    (hsAB : smash bi dA.root dA.flags dB.root dB.flags = .ok (rAB, fAB))
    (hkABC : compare_key (spec.keys.getD bi []) rAB dC.root = .eq)
    (hsABC : smash bi rAB fAB dC.root dC.flags = .ok (rABC, fABC))
    (hbv : bi < spec.validators.length)
    (hval : spec.validators.get ⟨bi, hbv⟩ rABC = true) :
    (∀ (keys : List (List Extractor)) (s t : Segment),
      cmpSeg keys s t = cmpT (segTriple keys s) (segTriple keys t)) ∧
    drainStep spec smash file [sA, sB, sC] =
      .ok (some (⟨bi, rABC, (fABC &&& FLAG_REDUCED) != 0, true, 2⟩, [])) := by
  refine ⟨fun keys s t => cmpSeg_eq_cmpT keys s t, ?_⟩
  have hheadA : sA.val.head = dA := by simp [Segment.head, hA]
  have hheadB : sB.val.head = dB := by simp [Segment.head, hB]
  have hheadC : sC.val.head = dC := by simp [Segment.head, hC]
  have hlenA : sA.val.docs.length = 1 := by rw [hA]; rfl
  have hlenB : sB.val.docs.length = 1 := by rw [hB]; rfl
  have hlenC : sC.val.docs.length = 1 := by rw [hC]; rfl
  have hvA : vnext sA file = .ok none := vnext_of_exhausted hlenA hxA
  have hvB : vnext sB file = .ok none := vnext_of_exhausted hlenB hxB
  have hvC : vnext sC file = .ok none := vnext_of_exhausted hlenC hxC
  have hkBC : compare_key (spec.keys.getD bi []) dB.root dC.root = .eq := by
    rw [compare_key_eq_cmpList, cmpList_eq_iff]
    have e1 : projKey (spec.keys.getD bi []) dA.root =
        projKey (spec.keys.getD bi []) dB.root := by
      rw [← cmpList_eq_iff, ← compare_key_eq_cmpList]
      exact hkAB
    have e2 : projKey (spec.keys.getD bi []) dA.root =
        projKey (spec.keys.getD bi []) dC.root := by
      rw [← cmpList_eq_iff, ← compare_key_eq_cmpList]
      exact hkAC
    rw [← e1, ← e2]
  have hcAB : cmpSeg spec.keys sA.val sB.val ≠ .gt := by
    unfold cmpSeg
    rw [hheadA, hheadB, hbA, hbB, hkAB]
    rw [show compare bi bi = Ordering.eq from Nat.compare_eq_eq.mpr rfl]
    rw [show compare sA.val.next.1 sB.val.next.1 = Ordering.lt from
      Nat.compare_eq_lt.mpr hoAB]
    decide
  have hcBC : cmpSeg spec.keys sB.val sC.val ≠ .gt := by
    unfold cmpSeg
    rw [hheadB, hheadC, hbB, hbC, hkBC]
    rw [show compare bi bi = Ordering.eq from Nat.compare_eq_eq.mpr rfl]
    rw [show compare sB.val.next.1 sC.val.next.1 = Ordering.lt from
      Nat.compare_eq_lt.mpr hoBC]
    decide
  have hpC : popMin spec.keys [sC] = some (sC, []) := popMin_single _ _
  have hpBC : popMin spec.keys [sB, sC] = some (sB, [sC]) :=
    popMin_cons_of_le hpC hcBC
  have hpABC : popMin spec.keys [sA, sB, sC] = some (sA, [sB, sC]) :=
    popMin_cons_of_le hpBC hcAB
  have hmg2 : mergeGroup spec smash file bi rAB fAB true 1 [sC] =
      .ok (rABC, fABC, true, 2, []) := by
    rw [mergeGroup]
    split
    · next heq =>
      rw [hpC] at heq
      exact absurd heq (by simp)
    · next peek rest heq =>
      rw [hpC] at heq
      simp only [Option.some.injEq, Prod.mk.injEq] at heq
      obtain ⟨rfl, rfl⟩ := heq
      rw [hheadC]
      rw [if_pos ⟨hbC.symm, hkABC⟩]
      simp only [hsABC]
      split
      · next heq2 =>
        rw [hvC] at heq2
        exact absurd heq2 (by simp)
      · exact mergeGroup_nil spec smash file bi rABC fABC true (1 + 1)
      · next peek' heq2 =>
        rw [hvC] at heq2
        exact absurd heq2 (by simp)
  have hmg1 : mergeGroup spec smash file bi dA.root dA.flags false 0 [sB, sC] =
      .ok (rABC, fABC, true, 2, []) := by
    rw [mergeGroup]
    split
    · next heq =>
      rw [hpBC] at heq
      exact absurd heq (by simp)
    · next peek rest heq =>
      rw [hpBC] at heq
      simp only [Option.some.injEq, Prod.mk.injEq] at heq
      obtain ⟨rfl, rfl⟩ := heq
      rw [hheadB]
      rw [if_pos ⟨hbB.symm, hkAB⟩]
      simp only [hsAB]
      split
      · next heq2 =>
        rw [hvB] at heq2
        exact absurd heq2 (by simp)
      · exact hmg2
      · next peek' heq2 =>
        rw [hvB] at heq2
        exact absurd heq2 (by simp)
  unfold drainStep
  split
  · next heq =>
    rw [hpABC] at heq
    exact absurd heq (by simp)
  · next cur rest heq =>
    rw [hpABC] at heq
    simp only [Option.some.injEq, Prod.mk.injEq] at heq
    obtain ⟨rfl, rfl⟩ := heq
    rw [hheadA, hbA]
    rw [dif_pos hbv]
    simp only [hmg1]
    rw [if_neg (by simp [hval])]
    simp only [hvA]

/-- fixCatSmash concatenates roots: an order-sensitive reduction that
makes the association order observable. -/
def fixCatSmash : Smash := fun _ a fa b _ => .ok (a ++ b, fa)

/-- fixC3B and fixC3C are one-document segments written after fixVSegA
(start offsets 7 and 9 > 5), same binding and same key. -/
def fixC3B : VSeg := ⟨⟨[⟨0, 0, [2]⟩], (7, 7)⟩, by decide⟩

def fixC3C : VSeg := ⟨⟨[⟨0, 0, [3]⟩], (9, 9)⟩, by decide⟩

/-- Witness for C3 at a concrete input: three same-key one-document
segments written at offsets 5 < 7 < 9 drain to the single document
reduce(reduce([1],[2]),[3]) = [1,2,3] under a concatenating reduction -
the association is observably left-to-right. -/
theorem claim_C3_witness :
    drainStep fixSpec fixCatSmash [] [fixVSegA, fixC3B, fixC3C] =
      .ok (some (⟨0, [1, 2, 3], (0 &&& FLAG_REDUCED) != 0, true, 2⟩, [])) :=
  (claim_C3_tie_break
    (show fixVSegA.val.docs = [⟨0, 0, [1]⟩] by decide)
    (show fixC3B.val.docs = [⟨0, 0, [2]⟩] by decide)
    (show fixC3C.val.docs = [⟨0, 0, [3]⟩] by decide)
    (by decide) (by decide) (by decide)
    (by decide) (by decide) (by decide)
    (by decide) (by decide)
    (by decide) (by decide)
    (show fixCatSmash 0 [1] 0 [2] 0 = .ok ([1, 2], 0) by decide)
    (by decide)
    (show fixCatSmash 0 [1, 2] 0 [3] 0 = .ok ([1, 2, 3], 0) by decide)
    (by decide) (by decide)).2

/-! ## Claim C2 witness fixtures: a two-binding drain -/

/-- fixSpec2: two bindings, no extractors, accepting validators. -/
def fixSpec2 : Spec := ⟨[[], []], [fun _ => true, fun _ => true]⟩

/-- fixVSegD is a one-document segment of binding 1. -/
def fixVSegD : VSeg := ⟨⟨[⟨1, 0, [2]⟩], (7, 7)⟩, by decide⟩

def fixD0 : Delivery := ⟨0, [1], false, false, 0⟩

def fixD1 : Delivery := ⟨1, [2], false, false, 0⟩

/-- Evaluation: the binding-0 group does not absorb the binding-1 head. -/
theorem mergeGroup_binding0 :
    mergeGroup fixSpec2 fixSmash [] (fixVSegA.val.head.binding)
      (fixVSegA.val.head.root) (fixVSegA.val.head.flags) false 0 [fixVSegD] =
      .ok (fixVSegA.val.head.root, fixVSegA.val.head.flags, false, 0,
        [fixVSegD]) := by
  rw [mergeGroup]
  split
  · next heq => exact absurd heq (by decide)
  · next peek rest heq =>
    have h2 : popMin fixSpec2.keys [fixVSegD] = some (fixVSegD, []) := by decide
    rw [h2] at heq
    simp only [Option.some.injEq, Prod.mk.injEq] at heq
    obtain ⟨rfl, rfl⟩ := heq
    rw [if_neg (by decide)]

/-- Evaluation: the first drain step emits the binding-0 document. -/
theorem drainStep_binding0 :
    drainStep fixSpec2 fixSmash [] [fixVSegA, fixVSegD] =
      .ok (some (fixD0, [fixVSegD])) := by
  unfold drainStep
  split
  · next heq => exact absurd heq (by decide)
  · next cur rest heq =>
    have h2 : popMin fixSpec2.keys [fixVSegA, fixVSegD] =
        some (fixVSegA, [fixVSegD]) := by decide
    rw [h2] at heq
    simp only [Option.some.injEq, Prod.mk.injEq] at heq
    obtain ⟨rfl, rfl⟩ := heq
    rw [dif_pos (show fixVSegA.val.head.binding < fixSpec2.validators.length by
      decide)]
    rw [mergeGroup_binding0]
    rfl

/-- Evaluation: the second drain step emits the binding-1 document. -/
theorem drainStep_binding1 :
    drainStep fixSpec2 fixSmash [] [fixVSegD] = .ok (some (fixD1, [])) := by
  unfold drainStep
  split
  · next heq => exact absurd heq (by decide)
  · next cur rest heq =>
    have h2 : popMin fixSpec2.keys [fixVSegD] = some (fixVSegD, []) := by decide
    rw [h2] at heq
    simp only [Option.some.injEq, Prod.mk.injEq] at heq
    obtain ⟨rfl, rfl⟩ := heq
    rw [dif_pos (show fixVSegD.val.head.binding < fixSpec2.validators.length by
      decide)]
    rw [mergeGroup_nil]
    rfl

/-- Witness for C2 at a concrete input: draining two well-formed
one-document segments of bindings 0 and 1 delivers both documents in
strictly ascending (binding, key) order, the two input documents are
accounted for by the two delivery groups with nothing left in the final
heap, and the false return confirms the drain completed. -/
theorem claim_C2_witness :
    ([fixD0, fixD1].map (dBK fixSpec2)).Pairwise ltBK ∧
    (∃ gs L', streamsOf ([] : List Nat) ([] : List VSeg) = .ok L' ∧
      ([(⟨0, 0, [1]⟩ : HeapDoc), ⟨1, 0, [2]⟩]).Perm (gs.flatten ++ L') ∧
      List.Forall₂ (GroupOf fixSpec2 fixSmash) [fixD0, fixD1] gs) ∧
    (false = false → ([] : List VSeg) = []) := by
  have hsm : ∀ bi a fa c fc r fr, fixSmash bi a fa c fc = .ok (r, fr) →
      projKey (fixSpec2.keys.getD bi []) r =
        projKey (fixSpec2.keys.getD bi []) a := by
    intro bi a fa c fc r fr hx
    have hx2 : (Except.ok (a, fa) : Except DrainErr (Node × Nat)) =
        .ok (r, fr) := hx
    simp only [Except.ok.injEq, Prod.mk.injEq] at hx2
    rw [← hx2.1]
  have hcolA : collectSeg [] fixVSegA = .ok [⟨0, 0, [1]⟩] := by
    rw [collectSeg]
    rfl
  have hcolD : collectSeg [] fixVSegD = .ok [⟨1, 0, [2]⟩] := by
    rw [collectSeg]
    rfl
  have hwf : ∀ s ∈ [fixVSegA, fixVSegD], SegWF fixSpec2.keys [] s := by
    intro s hs
    rcases List.mem_cons.mp hs with rfl | hs'
    · exact ⟨_, hcolA, by simp⟩
    · rcases List.mem_cons.mp hs' with rfl | hs''
      · exact ⟨_, hcolD, by simp⟩
      · exact absurd hs'' (by simp)
  have hstr : streamsOf [] [fixVSegA, fixVSegD] =
      .ok [⟨0, 0, [1]⟩, ⟨1, 0, [2]⟩] := by
    simp only [streamsOf, hcolA, hcolD, Except.map]
    rfl
  have h : drainAll fixSpec2 fixSmash [] [fixVSegA, fixVSegD] =
      .ok ([fixD0, fixD1], false, []) := by
    rw [drain_while_true_step]
    simp only [drainStep_binding0]
    rw [drain_while_true_step]
    simp only [drainStep_binding1]
    rw [drain_while_true_step]
    simp only [show drainStep fixSpec2 fixSmash [] [] = .ok none from rfl]
    rfl
  exact claim_C2_merge_ordering hsm hwf hstr h

end Spill
